import Mathlib

/-!
Verification development for the typed HTTP endpoint construction library.

The repository contains several near-identical drafts of the same design:

* draft 0: `src/unnamed/part_000` (an `Endpoint`/`Builder` pair whose `toUrl`
  iterates over the supplied parameter keys, whose `headers` builder call
  replaces the previous header provider, and whose `toRequestBody` classifies
  the body-selector output);
* draft 1: `src/unnamed/part_001` (an `Endpoint`/`Builder` pair with a
  `baseUrl`, whose `toURL` iterates over the template's parameter names and
  joins via the platform `URL` constructor, whose `headers` builder call
  merges static mappings, and whose `toRequestInit` classifies the body);
* the hook pipeline (`Middleware`, `HookSequences`) in `src/src/index.ts`,
  repeated verbatim at the end of `src/unnamed/part_001`.

Strings are modelled as `List Char` (`Str`), so that the JavaScript string
operations used by the source (`String.prototype.replace` with a string
pattern, i.e. first-occurrence replacement, concatenation, regex scanning for
`/{name}` parameters) become ordinary recursive functions that the kernel can
evaluate.  Objects used as string-keyed records (path-parameter mappings,
header mappings) are modelled as association lists in insertion order.
-/

/-- Strings, modelled as lists of characters. -/
abbrev Str := List Char

/-- First-match association-list lookup: the model of reading a property
of a JavaScript object (`params[key]`), for objects represented as
association lists in key insertion order. -/
def lookupS {α : Type} : List (Str × α) → Str → Option α
  | [], _ => none
  | (k, v) :: rest, key => if key = k then some v else lookupS rest key

/-- The model of the JavaScript prefix test used by first-occurrence search:
`startsWith pat s` is true when `pat` is a prefix of `s`. -/
def startsWith : Str → Str → Bool
  | [], _ => true
  | _ :: _, [] => false
  | p :: ps, c :: cs => if p = c then startsWith ps cs else false

/-- First-occurrence split: `splitFirst pat s` returns `some (pre, post)`
with `s = pre ++ pat ++ post` for the leftmost occurrence of `pat` in `s`,
and `none` when `pat` does not occur in `s`. -/
def splitFirst (pat : Str) : Str → Option (Str × Str)
  | [] => if pat.isEmpty then some ([], []) else none
  | c :: rest =>
    if startsWith pat (c :: rest) then some ([], (c :: rest).drop pat.length)
    else
      match splitFirst pat rest with
      | some (pre, post) => some (c :: pre, post)
      | none => none

/-- Model of JavaScript `s.replace(pat, repl)` with a string pattern and a
replacement containing no `$` directives: replace the first occurrence of
`pat` in `s`, or return `s` unchanged when `pat` does not occur. -/
def replaceFirst (s pat repl : Str) : Str :=
  match splitFirst pat s with
  | some (pre, post) => pre ++ repl ++ post
  | none => s

theorem startsWith_self_append (p t : Str) : startsWith p (p ++ t) = true := by
  induction p with
  | nil => rfl
  | cons c cs ih => simp [startsWith, ih]

theorem splitFirst_self_append (pat t : Str) :
    splitFirst pat (pat ++ t) = some ([], t) := by
  cases pat with
  | nil =>
    cases t with
    | nil => rfl
    | cons c cs => simp [splitFirst, startsWith]
  | cons p ps =>
    have h : startsWith (p :: ps) ((p :: ps) ++ t) = true :=
      startsWith_self_append (p :: ps) t
    have hd : ((p :: ps) ++ t).drop (p :: ps).length = t := List.drop_left _ _
    simp only [List.cons_append] at h hd
    simp [splitFirst, h, hd]

theorem splitFirst_append_of_noOcc (pat B X : Str)
    (h : ∀ i, i < B.length → startsWith pat (B.drop i ++ X) = false) :
    splitFirst pat (B ++ X) =
      (splitFirst pat X).map (fun pr => (B ++ pr.1, pr.2)) := by
  induction B with
  | nil =>
    cases hX : splitFirst pat X with
    | none => simp [hX]
    | some pr => cases pr; simp [hX]
  | cons b B' ih =>
    have h0 : startsWith pat ((b :: B') ++ X) = false := by
      have := h 0 (Nat.succ_pos _)
      simpa using this
    have hrec : ∀ i, i < B'.length → startsWith pat (B'.drop i ++ X) = false := by
      intro i hi
      have := h (i + 1) (Nat.succ_lt_succ hi)
      simpa using this
    have ihB := ih hrec
    simp only [List.cons_append] at h0
    cases hX : splitFirst pat X with
    | none =>
      rw [hX] at ihB
      simp [splitFirst, h0, ihB, hX]
    | some pr =>
      cases pr
      rw [hX] at ihB
      simp [splitFirst, h0, ihB, hX]

theorem replaceFirst_append_of_noOcc (pat B X repl : Str)
    (h : ∀ i, i < B.length → startsWith pat (B.drop i ++ X) = false) :
    replaceFirst (B ++ X) pat repl = B ++ replaceFirst X pat repl := by
  unfold replaceFirst
  rw [splitFirst_append_of_noOcc pat B X h]
  cases hX : splitFirst pat X with
  | none => simp
  | some pr => cases pr; simp

theorem noOcc_of_head_notMem (pat B X : Str) (c0 : Char)
    (hp : pat.head? = some c0) (hB : c0 ∉ B) :
    ∀ i, i < B.length → startsWith pat (B.drop i ++ X) = false := by
  induction B with
  | nil => intro i hi; exact absurd hi (Nat.not_lt_zero i)
  | cons b B' ih =>
    intro i hi
    cases i with
    | zero =>
      cases pat with
      | nil => simp at hp
      | cons p ps =>
        have hpc : p = c0 := by simpa using hp
        have hbc : b ≠ c0 := fun hb => hB (hb ▸ List.mem_cons_self b B')
        simp only [List.drop_zero, List.cons_append, startsWith]
        rw [if_neg (by rw [hpc]; exact fun hh => hbc hh.symm)]
    | succ j =>
      have hB' : c0 ∉ B' := fun hmem => hB (List.mem_cons_of_mem b hmem)
      have hj : j < B'.length := Nat.lt_of_succ_lt_succ hi
      simpa using ih hB' j hj

theorem brace_close_prefix_eq (k n X : Str) (hk : '}' ∉ k) (hn : '}' ∉ n)
    (h : startsWith (k ++ ['}']) (n ++ '}' :: X) = true) : k = n := by
  induction k generalizing n with
  | nil =>
    cases n with
    | nil => rfl
    | cons d n' =>
      exfalso
      have hd : d ≠ '}' := fun hh => hn (hh ▸ List.mem_cons_self d n')
      simp only [List.nil_append, List.cons_append, startsWith] at h
      rw [if_neg (fun hh => hd hh.symm)] at h
      exact Bool.false_ne_true h
  | cons c k' ih =>
    cases n with
    | nil =>
      exfalso
      have hc : c ≠ '}' := fun hh => hk (hh ▸ List.mem_cons_self c k')
      simp only [List.cons_append, List.nil_append, startsWith] at h
      rw [if_neg hc] at h
      exact Bool.false_ne_true h
    | cons d n' =>
      simp only [List.cons_append, startsWith] at h
      by_cases hcd : c = d
      · rw [if_pos hcd] at h
        have hk' : '}' ∉ k' := fun hm => hk (List.mem_cons_of_mem c hm)
        have hn' : '}' ∉ n' := fun hm => hn (List.mem_cons_of_mem d hm)
        rw [hcd, ih n' hk' hn' h]
      · rw [if_neg hcd] at h
        exact absurd h Bool.false_ne_true

/-- Characters of a string used as an opaque literal or value: contains no
left brace, so no placeholder pattern can begin inside it. -/
def noLB (s : Str) : Prop := '{' ∉ s

/-- A parameter name is brace-free on both sides. -/
def braceFreeName (s : Str) : Prop := '{' ∉ s ∧ '}' ∉ s

theorem noOcc_parA (k n X : Str)
    (hk : braceFreeName k) (hn : braceFreeName n) (hne : k ≠ n) :
    ∀ i, i < ('{' :: (n ++ ['}'])).length →
      startsWith ('{' :: (k ++ ['}'])) ((('{' :: (n ++ ['}'])).drop i) ++ X) = false := by
  intro i hi
  cases i with
  | zero =>
    simp only [List.drop_zero, List.cons_append, startsWith, if_pos rfl]
    cases h : startsWith (k ++ ['}']) ((n ++ ['}']) ++ X) with
    | false => rfl
    | true =>
      exfalso
      have hX : (n ++ ['}']) ++ X = n ++ '}' :: X := by simp
      rw [hX] at h
      exact hne (brace_close_prefix_eq k n X hk.2 hn.2 h)
  | succ j =>
    have hmem : '{' ∉ n ++ ['}'] := by
      intro hm
      rcases List.mem_append.mp hm with h1 | h2
      · exact hn.1 h1
      · simp at h2
    have hj : j < (n ++ ['}']).length := by
      simpa using Nat.lt_of_succ_lt_succ hi
    simpa using
      noOcc_of_head_notMem ('{' :: (k ++ ['}'])) (n ++ ['}']) X '{' rfl hmem j hj

theorem noOcc_slashBrace (pat : Str) (B X : Str)
    (hpat : ∃ tl, pat = '/' :: '{' :: tl)
    (hB : '{' ∉ B) (hX : X.head? ≠ some '{') :
    ∀ i, i < B.length → startsWith pat (B.drop i ++ X) = false := by
  obtain ⟨tl, rfl⟩ := hpat
  induction B with
  | nil => intro i hi; exact absurd hi (Nat.not_lt_zero i)
  | cons b B' ih =>
    intro i hi
    cases i with
    | zero =>
      simp only [List.drop_zero, List.cons_append, startsWith]
      by_cases hb : '/' = b
      · rw [if_pos hb]
        cases B' with
        | cons b' B'' =>
          have hb' : b' ≠ '{' := fun hh =>
            hB (hh ▸ List.mem_cons_of_mem b (List.mem_cons_self b' B''))
          simp only [List.cons_append, startsWith]
          rw [if_neg (fun hh => hb' hh.symm)]
        | nil =>
          cases X with
          | nil => rfl
          | cons x X' =>
            have hx : x ≠ '{' := by
              intro hh
              exact hX (by rw [hh]; rfl)
            simp only [List.nil_append, startsWith]
            rw [if_neg (fun hh => hx hh.symm)]
      · rw [if_neg hb]
    | succ j =>
      have hB' : '{' ∉ B' := fun hm => hB (List.mem_cons_of_mem b hm)
      have hj : j < B'.length := Nat.lt_of_succ_lt_succ hi
      simpa using ih hB' j hj

theorem noOcc_parB (k n X : Str)
    (hk : '}' ∉ k) (hn : braceFreeName n) (hns : '/' ∉ n) (hne : k ≠ n) :
    ∀ i, i < ('/' :: '{' :: (n ++ ['}'])).length →
      startsWith ('/' :: '{' :: (k ++ ['}']))
        ((('/' :: '{' :: (n ++ ['}'])).drop i) ++ X) = false := by
  intro i hi
  cases i with
  | zero =>
    simp only [List.drop_zero, List.cons_append, startsWith, if_pos rfl]
    cases h : startsWith (k ++ ['}']) ((n ++ ['}']) ++ X) with
    | false => rfl
    | true =>
      exfalso
      have hX : (n ++ ['}']) ++ X = n ++ '}' :: X := by simp
      rw [hX] at h
      exact hne (brace_close_prefix_eq k n X hk hn.2 h)
  | succ j =>
    cases j with
    | zero =>
      simp [startsWith]
    | succ j' =>
      have hmem : '/' ∉ n ++ ['}'] := by
        intro hm
        rcases List.mem_append.mp hm with h1 | h2
        · exact hns h1
        · simp at h2
      have hj : j' < (n ++ ['}']).length := by
        simpa using Nat.lt_of_succ_lt_succ (Nat.lt_of_succ_lt_succ hi)
      simpa using
        noOcc_of_head_notMem ('/' :: '{' :: (k ++ ['}'])) (n ++ ['}']) X '/' rfl hmem j' hj

theorem lookupS_eq_none_of_notMem {α : Type} (P : List (Str × α)) (k : Str)
    (h : k ∉ P.map Prod.fst) : lookupS P k = none := by
  induction P with
  | nil => rfl
  | cons q P' ih =>
    obtain ⟨k', v'⟩ := q
    have hk : k ≠ k' := by
      intro hh
      apply h
      rw [List.map_cons, hh]
      exact List.mem_cons_self k' (P'.map Prod.fst)
    simp only [lookupS, if_neg hk]
    exact ih (fun hm => h (List.mem_cons_of_mem _ hm))

theorem mem_of_lookupS_some {α : Type} (P : List (Str × α)) (k : Str) (v : α)
    (h : lookupS P k = some v) : (k, v) ∈ P := by
  induction P with
  | nil => exact absurd h (by simp [lookupS])
  | cons q P' ih =>
    obtain ⟨k', v'⟩ := q
    by_cases hk : k = k'
    · subst hk
      simp only [lookupS, if_pos rfl] at h
      obtain rfl : v' = v := Option.some.inj h
      exact List.mem_cons_self (k, v') P'
    · simp only [lookupS, if_neg hk] at h
      exact List.mem_cons_of_mem _ (ih h)

theorem lookupS_append {α : Type} (P Q : List (Str × α)) (k : Str) :
    lookupS (P ++ Q) k =
      match lookupS P k with
      | some v => some v
      | none => lookupS Q k := by
  induction P with
  | nil => simp [lookupS]
  | cons q P' ih =>
    obtain ⟨k', v'⟩ := q
    by_cases hk : k = k'
    · simp [lookupS, if_pos hk]
    · simp only [List.cons_append, lookupS, if_neg hk]
      exact ih

theorem lookupS_reverse_of_nodup {α : Type} (P : List (Str × α)) (k : Str)
    (h : (P.map Prod.fst).Nodup) : lookupS P.reverse k = lookupS P k := by
  induction P with
  | nil => rfl
  | cons q P' ih =>
    obtain ⟨k', v'⟩ := q
    have hnotin : k' ∉ P'.map Prod.fst := by
      have := h
      simp only [List.map_cons, List.nodup_cons] at this
      exact this.1
    have hnd : (P'.map Prod.fst).Nodup := by
      have := h
      simp only [List.map_cons, List.nodup_cons] at this
      exact this.2
    by_cases hk : k = k'
    · subst hk
      have hnone : lookupS P'.reverse k = none := by
        apply lookupS_eq_none_of_notMem
        intro hm
        apply hnotin
        have hmap : P'.reverse.map Prod.fst = (P'.map Prod.fst).reverse := by
          simp [List.map_reverse]
        rw [hmap] at hm
        exact List.mem_reverse.mp hm
      rw [List.reverse_cons, lookupS_append, hnone]
      simp [lookupS]
    · rw [List.reverse_cons, lookupS_append, ih hnd]
      simp only [lookupS, if_neg hk]
      cases hcase : lookupS P' k <;> simp [hcase]

/-!
JSON values and `JSON.stringify`, used by the body assembler when the
body-selector output is not a pass-through wire value.
-/

/-- JavaScript values that a body selector can return, as far as JSON
serialization is concerned: `null`, booleans, (integer) numbers, strings,
arrays and plain objects. -/
inductive JsValue where
  | nullV : JsValue
  | boolV : Bool → JsValue
  | numV : Int → JsValue
  | strV : Str → JsValue
  | arrV : List JsValue → JsValue
  | objV : List (Str × JsValue) → JsValue

/-- JSON string escaping for one character (the escapes `JSON.stringify`
applies to quote, backslash and the common control characters). -/
def escapeChar (c : Char) : Str :=
  if c = '"' then ['\\', '"']
  else if c = '\\' then ['\\', '\\']
  else if c = '\n' then ['\\', 'n']
  else if c = '\t' then ['\\', 't']
  else if c = '\r' then ['\\', 'r']
  else [c]

/-- Render an integer in decimal, the way `JSON.stringify` renders an
integral number. -/
def intToStr (n : Int) : Str :=
  (toString n).toList

/-- Interleave a separator between rendered elements. -/
def joinSep (sep : Str) : List Str → Str
  | [] => []
  | [s] => s
  | s :: rest => s ++ sep ++ joinSep sep rest

mutual

/-- Model of `JSON.stringify` on the modelled JavaScript values. -/
def stringify : JsValue → Str
  | .nullV => "null".toList
  | .boolV true => "true".toList
  | .boolV false => "false".toList
  | .numV n => intToStr n
  | .strV s => '"' :: ((s.map escapeChar).flatten ++ ['"'])
  | .arrV xs => '[' :: (joinSep [','] (stringifyList xs) ++ [']'])
  | .objV fields => '{' :: (joinSep [','] (stringifyFields fields) ++ ['}'])

def stringifyList : List JsValue → List Str
  | [] => []
  | v :: rest => stringify v :: stringifyList rest

def stringifyFields : List (Str × JsValue) → List Str
  | [] => []
  | (k, v) :: rest =>
    ('"' :: ((k.map escapeChar).flatten ++ ['"', ':'] ++ stringify v)) :: stringifyFields rest

end

/-!
The request-body assembler.  Both draft 0 (`Endpoint.toRequestBody`,
`src/unnamed/part_000` lines 69-85) and draft 1 (`Endpoint.toRequestInit`,
`src/unnamed/part_001` lines 58-81) run the body-selector output through the
same classification: `null`, strings, `Blob`, `FormData`, `ReadableStream`,
`URLSearchParams`, `ArrayBuffer` and `ArrayBufferView` values are attached
as the body unchanged, anything else is `JSON.stringify`-ed.
-/

/-- The possible body-selector outputs, tagged by the runtime type tests the
source performs (`input === null`, `typeof input === "string"`, the
`instanceof` chain, the structural `ArrayBufferView` check); `jsonValue`
stands for every other value, which the source JSON-encodes. -/
inductive BodyInput where
  | nullB : BodyInput
  | textB : Str → BodyInput
  | blobB : List Nat → BodyInput
  | formDataB : List (Str × Str) → BodyInput
  | streamB : Nat → BodyInput
  | searchParamsB : List (Str × Str) → BodyInput
  | bufferB : List Nat → BodyInput
  | bufferViewB : List Nat → BodyInput
  | jsonValue : JsValue → BodyInput

/-- The condition of the source's if-chain: true exactly for `null` and the
pass-through wire types. -/
def isPassThrough : BodyInput → Bool
  | .nullB => true
  | .textB _ => true
  | .blobB _ => true
  | .formDataB _ => true
  | .streamB _ => true
  | .searchParamsB _ => true
  | .bufferB _ => true
  | .bufferViewB _ => true
  | .jsonValue _ => false

/-- The body attached to the outgoing request: the selector output itself
when the if-chain accepts it (with `nullB` meaning the body is absent),
otherwise the `JSON.stringify` text of the value. -/
def classifyBody (input : BodyInput) : BodyInput :=
  match input with
  | .jsonValue v => .textB (stringify v)
  | other => other

/-- HTTP methods, the `HttpRestMethod` enumeration (`GET, HEAD, OPTIONS,
POST, PUT, PATCH, DELETE`). -/
inductive Method where
  | get | head | options | post | put | patch | delete
deriving DecidableEq

/-- A header mapping (`HeadersInit`), modelled as an association list in
insertion order. -/
abbrev HeadersMap := List (Str × Str)

/-- Model of the JavaScript object spread `{ ...a, ...b }` on string-keyed
records without duplicate keys: `a`'s keys in order with values overridden
by `b` where present, then `b`'s keys not occurring in `a`, in order. -/
def jsSpread (a b : List (Str × Str)) : List (Str × Str) :=
  a.map (fun p => (p.1, (lookupS b p.1).getD p.2)) ++
    b.filter (fun q => (lookupS a q.1).isNone)

/-- The argument of the `headers` builder call: either a static header
mapping or a zero-argument `Headers` factory. -/
inductive HeadersArg where
  | mapping : HeadersMap → HeadersArg
  | factory : (Unit → HeadersMap) → HeadersArg

/-- Transport options other than body/method/headers
(`Omit<RequestInit, "body" | "method" | "headers">`), modelled as an
opaque string-keyed record. -/
abbrev OptionsRec := List (Str × Str)

/-!
Draft 0: the `Endpoint`/`Builder` pair of `src/unnamed/part_000`.

The TypeScript type parameters (`Path`, `Method`, `Input`, `Output`) are
compile-time only and erased at runtime; the model therefore fixes the
selector input to a list of `JsValue` arguments and the decoder to an
`io-ts`-style function from a raw value to a success-or-error result.
-/

namespace Draft0

/-- The configuration record `EndpointInit` (`src/unnamed/part_000`
lines 25-37): path template, method, lazy headers, optional extra options,
body selector and output decoder. -/
structure EndpointInit where
  url : Str
  method : Method
  headers : Unit → HeadersMap
  options : Option OptionsRec
  inputSelector : List JsValue → BodyInput
  outputDecoder : JsValue → Except Str JsValue

/-- The immutable endpoint: a wrapper around its configuration record. -/
structure Endpoint where
  init : EndpointInit

/-- The fluent builder: a wrapper around the configuration record it will
hand to `build`. -/
structure Builder where
  init : EndpointInit

/-- `Endpoint.url(url)` (lines 48-56): start a builder with the given
template and the defaults `GET`, empty lazy headers, `lazy(null)` input
selector and the accept-anything decoder `io.any`. -/
def Endpoint.url (u : Str) : Builder :=
  ⟨{ url := u
     method := .get
     headers := fun _ => []
     options := none
     inputSelector := fun _ => .nullB
     outputDecoder := fun j => .ok j }⟩

/-- `Builder.url` (line 107-109): copy the record with the template
replaced. -/
def Builder.url (b : Builder) (u : Str) : Builder :=
  ⟨{ b.init with url := u }⟩

/-- `Builder.method` (lines 111-113): copy the record with the method
replaced. -/
def Builder.method (b : Builder) (m : Method) : Builder :=
  ⟨{ b.init with method := m }⟩

/-- `Builder.expects` (lines 115-117): copy the record with the body
selector replaced. -/
def Builder.expects (b : Builder) (sel : List JsValue → BodyInput) : Builder :=
  ⟨{ b.init with inputSelector := sel }⟩

/-- `Builder.returns` (lines 120-122): copy the record with the output
decoder replaced. -/
def Builder.returns (b : Builder) (dec : JsValue → Except Str JsValue) : Builder :=
  ⟨{ b.init with outputDecoder := dec }⟩

/-- `Builder.headers` (lines 124-129): copy the record with the header
provider replaced by `() => headers` for a static mapping or
`() => new headers()` for a factory.  In this draft the previous provider
is discarded in both modes. -/
def Builder.headers (b : Builder) (h : HeadersArg) : Builder :=
  ⟨{ b.init with
     headers :=
       match h with
       | .mapping m => fun _ => m
       | .factory f => fun _ => f () }⟩

/-- `Builder.options` (lines 131-133): copy the record with the extra
options replaced. -/
def Builder.options (b : Builder) (o : OptionsRec) : Builder :=
  ⟨{ b.init with options := some o }⟩

/-- `Builder.build` (lines 135-137): materialize the current record into an
endpoint.  No copy is made; the record is immutable. -/
def Builder.build (b : Builder) : Endpoint :=
  ⟨b.init⟩

/-- `Endpoint.toBuilder` (lines 99-101): re-enter the builder state with
the endpoint's configuration. -/
def Endpoint.toBuilder (e : Endpoint) : Builder :=
  ⟨e.init⟩

/-- `Endpoint.toUrl(params)` (lines 87-93): iterate over the keys of the
supplied `params` object in insertion order and replace, for each key, the
first occurrence of the literal text `{key}` in the template with the
supplied value.  Keys absent from the template are ignored by `replace`;
template parameters absent from `params` are left as literal `{name}`
text — no error is ever raised. -/
def Endpoint.toUrl (e : Endpoint) (params : List (Str × Str)) : Str :=
  params.foldl (fun u p => replaceFirst u ('{' :: (p.1 ++ ['}'])) p.2) e.init.url

/-- `Endpoint.toRequestBody(...data)` (lines 69-85): run the body selector
and classify its output with the pass-through if-chain. -/
def Endpoint.toRequestBody (e : Endpoint) (data : List JsValue) : BodyInput :=
  classifyBody (e.init.inputSelector data)

/-- `Endpoint.toValidation` (lines 95-97): pass the raw value to the output
decoder and return its result unmodified. -/
def Endpoint.toValidation (e : Endpoint) (x : JsValue) : Except Str JsValue :=
  e.init.outputDecoder x

end Draft0

/-!
Draft 1: the `Endpoint`/`Builder` pair of `src/unnamed/part_001`
(the draft with `baseUrl`, header merging and option merging).
-/

/-- A regex word character, `\w` = `[A-Za-z0-9_]`. -/
def isWordChar (c : Char) : Bool := c.isAlphanum || c = '_'

/-- Scan a maximal run of word characters and require a closing `}`
immediately after it; returns the name and the remainder after the `}`. -/
def scanName (s : Str) : Option (Str × Str) :=
  let name := s.takeWhile isWordChar
  let rest := s.dropWhile isWordChar
  if name.isEmpty then none
  else if rest.head? = some '}' then some (name, rest.tail) else none

/-- Model of `getUrlParametersNames` (`src/unnamed/part_001` lines 147-149):
all matches of the regex `(?<=\/\{)(\w+)(?=\})` in order, i.e. every maximal
word-character run that is immediately preceded by the text `/{` and
immediately followed by `}`.  The scan advances one character at a time; a
parameter's interior (`{name}`) contains no `/`, so no match is missed or
added compared to the regex's continuation point. -/
def getParamNames : Str → List Str
  | [] => []
  | c :: rest =>
    (if c = '/' ∧ rest.head? = some '{' then
      match scanName rest.tail with
      | some (n, _) => [n]
      | none => []
    else []) ++ getParamNames rest

/-- The characters of the text produced by JavaScript string coercion of
`undefined`, as in `"/" + params[name]` when `name` is missing. -/
def undefinedChars : Str := "undefined".toList

namespace Draft1

/-- The configuration record `EndpointInfo` (`src/unnamed/part_001`
lines 4-18). -/
structure EndpointInfo where
  url : Str
  baseUrl : Str
  method : Method
  headersGetter : Unit → HeadersMap
  inputSelector : List JsValue → BodyInput
  outputDecoder : JsValue → Except Str JsValue
  options : Option OptionsRec

/-- The immutable endpoint of draft 1. -/
structure Endpoint where
  info : EndpointInfo

/-- The fluent builder of draft 1. -/
structure Builder where
  info : EndpointInfo

/-- `Endpoint.base(baseUrl, baseInitOptions)` (lines 36-46): start a builder
with url `/`, the given base URL, `GET`, empty lazy headers, `() => null`
selector, accept-anything decoder and the given initial options. -/
def Endpoint.base (baseUrl : Str) (baseInitOptions : Option OptionsRec) : Builder :=
  ⟨{ url := ['/']
     baseUrl := baseUrl
     method := .get
     headersGetter := fun _ => []
     inputSelector := fun _ => .nullB
     outputDecoder := fun j => .ok j
     options := baseInitOptions }⟩

/-- `Builder.build` (lines 104-107). -/
def Builder.build (b : Builder) : Endpoint :=
  ⟨b.info⟩

/-- `Builder.url` (lines 109-111). -/
def Builder.url (b : Builder) (u : Str) : Builder :=
  ⟨{ b.info with url := u }⟩

/-- `Builder.method` (lines 113-115). -/
def Builder.method (b : Builder) (m : Method) : Builder :=
  ⟨{ b.info with method := m }⟩

/-- `Builder.expects` (lines 117-119). -/
def Builder.expects (b : Builder) (sel : List JsValue → BodyInput) : Builder :=
  ⟨{ b.info with inputSelector := sel }⟩

/-- `Builder.returns` (lines 121-123). -/
def Builder.returns (b : Builder) (dec : JsValue → Except Str JsValue) : Builder :=
  ⟨{ b.info with outputDecoder := dec }⟩

/-- `Builder.headers` (lines 125-134), the two-mode draft: a factory
replaces the previous provider with `() => new headers()`; a static mapping
installs `() => ({ ...this.info.headersGetter(), ...headers })`, i.e. the
spread-merge of the previous provider's result with the mapping, the
mapping winning on key conflicts. -/
def Builder.headers (b : Builder) (h : HeadersArg) : Builder :=
  match h with
  | .factory f => ⟨{ b.info with headersGetter := fun _ => f () }⟩
  | .mapping m =>
    ⟨{ b.info with headersGetter := fun u => jsSpread (b.info.headersGetter u) m }⟩

/-- `Builder.options` (lines 136-141): spread-merge the new options into
the current ones (`{ ...this.info.options, ...options }`; a missing current
record spreads as the empty record). -/
def Builder.options (b : Builder) (o : OptionsRec) : Builder :=
  ⟨{ b.info with options := some (jsSpread (b.info.options.getD []) o) }⟩

/-- `Endpoint.toBuilder` (lines 96-98). -/
def Endpoint.toBuilder (e : Endpoint) : Builder :=
  ⟨e.info⟩

/-- The substitution loop of `Endpoint.toURL` (lines 83-90): for each
parameter name of the template, in template order, replace the first
occurrence of the text `/{name}` with `/` followed by `params[name]`;
a missing key reads as `undefined`, which string-coerces to the literal
text `undefined`. -/
def substUrl (url : Str) (params : List (Str × Str)) : Str :=
  (getParamNames url).foldl
    (fun u n =>
      replaceFirst u ('/' :: '{' :: (n ++ ['}']))
        ('/' :: ((lookupS params n).getD undefinedChars)))
    url

/-- A parsed absolute URL: origin (scheme and host) and path. -/
structure UrlRec where
  origin : Str
  path : Str
deriving DecidableEq

/-- Serialize a parsed URL back to text. -/
def UrlRec.toStr (r : UrlRec) : Str := r.origin ++ r.path

/-- Modelled from the platform: parse an absolute `http(s)`-style base URL
string (no query, fragment or userinfo) into origin and path; a base
without a path gets path `/`, as the `URL` class normalizes. -/
def parseBase (s : Str) : UrlRec :=
  match splitFirst "://".toList s with
  | some (scheme, rest) =>
    let host := rest.takeWhile (fun c => c ≠ '/')
    let path := rest.dropWhile (fun c => c ≠ '/')
    ⟨scheme ++ "://".toList ++ host, if path.isEmpty then ['/'] else path⟩
  | none => ⟨[], if s.isEmpty then ['/'] else s⟩

/-- The base path's directory: everything up to and including the last
`/`. -/
def dirName (p : Str) : Str :=
  (p.reverse.dropWhile (fun c => c ≠ '/')).reverse

/-- Modelled from the platform: WHATWG relative resolution as performed by
`new URL(url, base)` for the fragment the source exercises (no scheme in
`url`, no `.`/`..` segments, no query or fragment): a `url` beginning with
`/` replaces the base's whole path, keeping only its origin; any other
`url` is appended to the directory of the base's path. -/
def resolveURL (base : UrlRec) (u : Str) : UrlRec :=
  if u.head? = some '/' then ⟨base.origin, u⟩
  else ⟨base.origin, dirName base.path ++ u⟩

/-- `Endpoint.toURL(params)` (lines 83-90): substitute the parameters into
the template, then resolve the result against the base URL via
`new URL(url, this.info.baseUrl)`. -/
def Endpoint.toURL (e : Endpoint) (params : List (Str × Str)) : UrlRec :=
  resolveURL (parseBase e.info.baseUrl) (substUrl e.info.url params)

/-- The record returned by `toRequestInit` (lines 58-81): classified body,
method, the headers produced by invoking the provider now, and the extra
options.  The source returns `{ ...options, body, method, headers }`; the
option type excludes the `body`/`method`/`headers` keys, so the spread
cannot collide with them and the four parts are modelled as separate
fields. -/
structure RequestInit where
  body : BodyInput
  method : Method
  headers : HeadersMap
  options : Option OptionsRec

/-- `Endpoint.toRequestInit(...data)` (lines 58-81). -/
def Endpoint.toRequestInit (e : Endpoint) (data : List JsValue) : RequestInit :=
  { body := classifyBody (e.info.inputSelector data)
    method := e.info.method
    headers := e.info.headersGetter ()
    options := e.info.options }

/-- A concrete request description: a resolved URL plus a request-init
record, the model of `new Request(url, init)`. -/
structure Request where
  url : UrlRec
  init : RequestInit

/-- `Endpoint.toRequest(params, ...data)` (lines 52-56): compose `toURL`
and `toRequestInit`. -/
def Endpoint.toRequest (e : Endpoint) (params : List (Str × Str))
    (data : List JsValue) : Request :=
  ⟨e.toURL params, e.toRequestInit data⟩

/-- `Endpoint.toValidation` (lines 92-94). -/
def Endpoint.toValidation (e : Endpoint) (x : JsValue) : Except Str JsValue :=
  e.info.outputDecoder x

end Draft1

/-!
The hook pipeline: `Hooks`, `HookSequences` and `Middleware` from
`src/src/index.ts` lines 1-103 (repeated verbatim in `src/unnamed/part_001`
lines 530-635).

Modelling decisions: the pipeline is generic in the request, response and
error types of one `send` call (`Req`, `Resp`, `Err`).  A hook that "can
throw" is a function into `Except Err`; a hook's `Request | void` return
type is an `Option`, with `none` for `void`, so the source's
`request = hook(request) ?? request` is `(h request).getD request`.
`onFailure` hooks are modelled by their declared type (they return a
replacement error or nothing; their documentation says to avoid throwing
inside them), and `onSettled` hooks — `() => void`, observable only through
their side effects — are modelled as transformers of an ambient state `St`
threaded through the `finally` block.  The global `fetch` used by `send` is
the injected transport capability, passed as an explicit argument. -/

/-- `Partial<Hooks>`: at most one hook per phase, as accepted by
`Middleware.create` and `Middleware.extend`. -/
structure HookSet (Req Resp Err St : Type) where
  onCreated : Option (Req → Except Err (Option Req))
  onSuccess : Option (Resp → Except Err (Option Resp))
  onFailure : Option (Err → Option Err)
  onSettled : Option (St → St)

/-- `HookSequences`: one ordered list of hooks per phase
(`src/src/index.ts` line 84). -/
structure HookSequences (Req Resp Err St : Type) where
  onCreated : List (Req → Except Err (Option Req))
  onSuccess : List (Resp → Except Err (Option Resp))
  onFailure : List (Err → Option Err)
  onSettled : List (St → St)

/-- `HookSequences.from(hooks)` (lines 86-93): each phase becomes the
zero-or-one-element sequence of the supplied hook. -/
def HookSequences.fromSet {Req Resp Err St : Type} (h : HookSet Req Resp Err St) :
    HookSequences Req Resp Err St :=
  ⟨h.onCreated.toList, h.onSuccess.toList, h.onFailure.toList, h.onSettled.toList⟩

/-- `HookSequences.concat(target, source)` (lines 95-102): phase-wise
append, target's hooks first. -/
def HookSequences.concat {Req Resp Err St : Type}
    (target source : HookSequences Req Resp Err St) : HookSequences Req Resp Err St :=
  ⟨target.onCreated ++ source.onCreated,
   target.onSuccess ++ source.onSuccess,
   target.onFailure ++ source.onFailure,
   target.onSettled ++ source.onSettled⟩

/-- `Middleware`: holds its hook sequences (line 38-39). -/
structure Middleware (Req Resp Err St : Type) where
  hooks : HookSequences Req Resp Err St

/-- `Middleware.create(hooks)` (lines 41-43). -/
def Middleware.create {Req Resp Err St : Type} (h : HookSet Req Resp Err St) :
    Middleware Req Resp Err St :=
  ⟨HookSequences.fromSet h⟩

/-- `Middleware.extend(client, hooks)` (lines 45-47): a new middleware over
the concatenation of the client's sequences with the new single-hook
sequences; the client is not modified. -/
def Middleware.extend {Req Resp Err St : Type} (client : Middleware Req Resp Err St)
    (h : HookSet Req Resp Err St) : Middleware Req Resp Err St :=
  ⟨HookSequences.concat client.hooks (HookSequences.fromSet h)⟩

/-- One `for (const hook of phase) { x = hook(x) ?? x }` loop over a phase
that may throw: stop at the first thrown error, otherwise fold the hooks
left to right, a `none` return leaving the current value unchanged. -/
def runPhase {α Err : Type} : List (α → Except Err (Option α)) → α → Except Err α
  | [], x => .ok x
  | h :: rest, x =>
    match h x with
    | .error e => .error e
    | .ok r => runPhase rest (r.getD x)

/-- The `catch` block's loop (lines 71-75):
`for (const hook of onFailure) { failure = hook(failure) ?? failure }`. -/
def runFailure {Err : Type} (hooks : List (Err → Option Err)) (e : Err) : Err :=
  hooks.foldl (fun acc h => (h acc).getD acc) e

/-- The `finally` block's loop (lines 76-80):
`for (const hook of onSettled) { hook() }`, as a fold over the ambient
state. -/
def runSettled {St : Type} (hooks : List (St → St)) (s : St) : St :=
  hooks.foldl (fun acc h => h acc) s

/-- The `try` block of `send` (lines 62-70): run the `onCreated` hooks over
the request, dispatch the final request through the transport, then run the
`onSuccess` hooks over the response; the first value thrown anywhere in the
block aborts it. -/
def Middleware.sendTry {Req Resp Err St : Type} (hs : HookSequences Req Resp Err St)
    (transport : Req → Except Err Resp) (request : Req) : Except Err Resp :=
  match runPhase hs.onCreated request with
  | .error e => .error e
  | .ok req =>
    match transport req with
    | .error e => .error e
    | .ok resp => runPhase hs.onSuccess resp

/-- `Middleware.send(request)` (lines 60-81): the try/catch/finally.  The
first component is the outcome the caller observes (the returned response,
or the error re-thrown after the `onFailure` loop transformed it); the
second component is the state after the `finally` block ran every
`onSettled` hook once, in order, on both paths. -/
def Middleware.send {Req Resp Err St : Type} (m : Middleware Req Resp Err St)
    (transport : Req → Except Err Resp) (request : Req) (s0 : St) :
    Except Err Resp × St :=
  (match Middleware.sendTry m.hooks transport request with
   | .ok resp => .ok resp
   | .error e => .error (runFailure m.hooks.onFailure e),
   runSettled m.hooks.onSettled s0)

/-- Lift a hook that never throws (returning a replacement or nothing) to
the throwing hook type. -/
def liftHook {α Err : Type} (h : α → Option α) : α → Except Err (Option α) :=
  fun x => Except.ok (h x)

/-- C3: for a middleware built as
`Middleware.extend(Middleware.create({onCreated: h1}), {onCreated: h2})`,
`send` threads the request left to right through `h1` then `h2`: the
request passed to `h2` is `h1`'s return value, or the original request when
`h1` returned nothing, and the request dispatched to the transport is the
left-to-right fold over the whole `onCreated` sequence (so the send outcome
is exactly the transport's answer on that folded request, with the settled
state untouched since no other hooks are registered).  Moreover `extend`
never mutates the middleware it extends: each phase sequence of the result
is the target's hooks followed by the source's hooks in their original
relative order. -/
theorem c3_hook_ordering :
    (∀ (Req Resp Err St : Type) (mw : Middleware Req Resp Err St)
        (h : HookSet Req Resp Err St),
      (Middleware.extend mw h).hooks.onCreated
          = mw.hooks.onCreated ++ h.onCreated.toList ∧
      (Middleware.extend mw h).hooks.onSuccess
          = mw.hooks.onSuccess ++ h.onSuccess.toList ∧
      (Middleware.extend mw h).hooks.onFailure
          = mw.hooks.onFailure ++ h.onFailure.toList ∧
      (Middleware.extend mw h).hooks.onSettled
          = mw.hooks.onSettled ++ h.onSettled.toList) ∧
    (∀ (Req Resp Err St : Type) (h1 h2 : Req → Option Req)
        (transport : Req → Except Err Resp) (r : Req) (s0 : St),
      Middleware.send
          (Middleware.extend
            (Middleware.create ⟨some (liftHook h1), none, none, none⟩)
            ⟨some (liftHook h2), none, none, none⟩)
          transport r s0
        = (transport ((h2 ((h1 r).getD r)).getD ((h1 r).getD r)), s0)) := by
  constructor
  · intro Req Resp Err St mw h
    exact ⟨rfl, rfl, rfl, rfl⟩
  · intro Req Resp Err St h1 h2 transport r s0
    simp only [Middleware.send, Middleware.sendTry, Middleware.extend,
      Middleware.create, HookSequences.concat, HookSequences.fromSet,
      Option.toList, runPhase, liftHook, runSettled, runFailure,
      List.nil_append, List.append_nil, List.foldl_nil]
    cases transport ((h2 ((h1 r).getD r)).getD ((h1 r).getD r)) <;> rfl

/-- C4: whenever the try block of `send` fails — the transport dispatch
threw or an `onCreated`/`onSuccess` hook threw — the thrown value is passed
through every `onFailure` hook in sequence order (each hook's non-`none`
return replacing the current error, as the recursion equation in the last
conjunct states), `send` rejects with the error so transformed, and `send`
never converts such a failure into a successful return. -/
theorem c4_failure_transform (Req Resp Err St : Type)
    (m : Middleware Req Resp Err St) (transport : Req → Except Err Resp)
    (r : Req) (s0 : St) (e : Err)
    (hfail : Middleware.sendTry m.hooks transport r = .error e) :
    (m.send transport r s0).1 = .error (runFailure m.hooks.onFailure e) ∧
    (∀ resp : Resp, (m.send transport r s0).1 ≠ .ok resp) ∧
    (∀ (h : Err → Option Err) (hs : List (Err → Option Err)) (e0 : Err),
      runFailure (h :: hs) e0 = runFailure hs ((h e0).getD e0)) := by
  refine ⟨?_, ?_, ?_⟩
  · simp [Middleware.send, hfail]
  · intro resp
    simp [Middleware.send, hfail]
  · intro h hs e0
    rfl

/-- Witness for C4: one `onFailure` hook replacing the error `e` by `e + 1`
and a transport that throws `5`; `send` rejects with the replaced error
`6`. -/
theorem c4_failure_transform_witness :
    ((Middleware.create
        (⟨none, none, some (fun e => some (e + 1)), none⟩ : HookSet Nat Nat Nat Nat)).send
      (fun _ => .error 5) 0 0).1 = .error 6 :=
  ((c4_failure_transform Nat Nat Nat Nat
      (Middleware.create ⟨none, none, some (fun e => some (e + 1)), none⟩)
      (fun _ => .error 5) 0 0 5 rfl).1).trans rfl

/-- C5: on every `send` invocation, whether the try block returns a
response or propagates an error, the settled state is the fold of every
registered `onSettled` hook, applied once each in sequence order, over the
initial state — the `finally` block runs on both paths, after the success
or failure phase has produced the outcome paired with it. -/
theorem c5_settled_always (Req Resp Err St : Type)
    (m : Middleware Req Resp Err St) (transport : Req → Except Err Resp)
    (r : Req) (s0 : St) :
    (m.send transport r s0).2 = runSettled m.hooks.onSettled s0 ∧
    (∀ resp : Resp, Middleware.sendTry m.hooks transport r = .ok resp →
      m.send transport r s0 = (.ok resp, runSettled m.hooks.onSettled s0)) ∧
    (∀ e : Err, Middleware.sendTry m.hooks transport r = .error e →
      m.send transport r s0
        = (.error (runFailure m.hooks.onFailure e), runSettled m.hooks.onSettled s0)) := by
  refine ⟨rfl, ?_, ?_⟩
  · intro resp hok
    simp [Middleware.send, hok]
  · intro e herr
    simp [Middleware.send, herr]

/-- Witness for C5: a middleware with one `onSettled` hook incrementing the
state; the hook runs exactly once both when the transport succeeds and when
it throws. -/
theorem c5_settled_always_witness :
    (Middleware.create
        (⟨none, none, none, some (fun s => s + 1)⟩ : HookSet Nat Nat Nat Nat)).send
      (fun _ => .ok 7) 0 0 = (.ok 7, 1) ∧
    (Middleware.create
        (⟨none, none, none, some (fun s => s + 1)⟩ : HookSet Nat Nat Nat Nat)).send
      (fun _ => .error 5) 0 0 = (.error 5, 1) :=
  ⟨((c5_settled_always Nat Nat Nat Nat
      (Middleware.create ⟨none, none, none, some (fun s => s + 1)⟩)
      (fun _ => .ok 7) 0 0).2.1 7 rfl).trans rfl,
   ((c5_settled_always Nat Nat Nat Nat
      (Middleware.create ⟨none, none, none, some (fun s => s + 1)⟩)
      (fun _ => .error 5) 0 0).2.2 5 rfl).trans rfl⟩

/-- C1 (code evidence for the spec's fail-fast requirement): on the template
`/things/{id}` with an empty parameter mapping, draft 1's substitution
returns normally and embeds the placeholder text `undefined` (the
string-coercion of the missing property), and draft 0's `toUrl` returns
normally leaving the literal `{id}` token in place.  Both functions are
total — no `MissingParameterError` exists anywhere in the code — so the
spec's `MissingParameterError` contract is violated by the code. -/
theorem c1_missing_param_no_error :
    Draft1.substUrl "/things/{id}".toList [] = "/things/undefined".toList ∧
    splitFirst "undefined".toList (Draft1.substUrl "/things/{id}".toList []) ≠ none ∧
    ((Draft0.Endpoint.url "/things/{id}".toList).build.toUrl []) = "/things/{id}".toList := by
  refine ⟨by decide, by decide, by decide⟩

/-- C2: every builder operation of draft 0 (`url`, `method`, `expects`,
`returns`, `headers`, `options`) produces a new builder whose configuration
record agrees with the original on every field except the one the operation
targets, which holds the supplied value; and `build` reads the builder's
record unchanged, so the original builder keeps producing the same endpoint
after any operation has been applied to it (the model is pure, mirroring
the source's copy-on-write `new Builder({ ...this.init, field })`). -/
theorem c2_builder_frame :
    (∀ (b : Draft0.Builder) (u : Str),
      (b.url u).init.url = u ∧
      (b.url u).init.method = b.init.method ∧
      (b.url u).init.headers = b.init.headers ∧
      (b.url u).init.options = b.init.options ∧
      (b.url u).init.inputSelector = b.init.inputSelector ∧
      (b.url u).init.outputDecoder = b.init.outputDecoder) ∧
    (∀ (b : Draft0.Builder) (m : Method),
      (b.method m).init.method = m ∧
      (b.method m).init.url = b.init.url ∧
      (b.method m).init.headers = b.init.headers ∧
      (b.method m).init.options = b.init.options ∧
      (b.method m).init.inputSelector = b.init.inputSelector ∧
      (b.method m).init.outputDecoder = b.init.outputDecoder) ∧
    (∀ (b : Draft0.Builder) (sel : List JsValue → BodyInput),
      (b.expects sel).init.inputSelector = sel ∧
      (b.expects sel).init.url = b.init.url ∧
      (b.expects sel).init.method = b.init.method ∧
      (b.expects sel).init.headers = b.init.headers ∧
      (b.expects sel).init.options = b.init.options ∧
      (b.expects sel).init.outputDecoder = b.init.outputDecoder) ∧
    (∀ (b : Draft0.Builder) (dec : JsValue → Except Str JsValue),
      (b.returns dec).init.outputDecoder = dec ∧
      (b.returns dec).init.url = b.init.url ∧
      (b.returns dec).init.method = b.init.method ∧
      (b.returns dec).init.headers = b.init.headers ∧
      (b.returns dec).init.options = b.init.options ∧
      (b.returns dec).init.inputSelector = b.init.inputSelector) ∧
    (∀ (b : Draft0.Builder) (h : HeadersArg),
      (b.headers h).init.url = b.init.url ∧
      (b.headers h).init.method = b.init.method ∧
      (b.headers h).init.options = b.init.options ∧
      (b.headers h).init.inputSelector = b.init.inputSelector ∧
      (b.headers h).init.outputDecoder = b.init.outputDecoder) ∧
    (∀ (b : Draft0.Builder) (o : OptionsRec),
      (b.options o).init.options = some o ∧
      (b.options o).init.url = b.init.url ∧
      (b.options o).init.method = b.init.method ∧
      (b.options o).init.headers = b.init.headers ∧
      (b.options o).init.inputSelector = b.init.inputSelector ∧
      (b.options o).init.outputDecoder = b.init.outputDecoder) ∧
    (∀ b : Draft0.Builder, b.build.init = b.init) :=
  ⟨fun _ _ => ⟨rfl, rfl, rfl, rfl, rfl, rfl⟩,
   fun _ _ => ⟨rfl, rfl, rfl, rfl, rfl, rfl⟩,
   fun _ _ => ⟨rfl, rfl, rfl, rfl, rfl, rfl⟩,
   fun _ _ => ⟨rfl, rfl, rfl, rfl, rfl, rfl⟩,
   fun _ _ => ⟨rfl, rfl, rfl, rfl, rfl⟩,
   fun _ _ => ⟨rfl, rfl, rfl, rfl, rfl, rfl⟩,
   fun _ => rfl⟩

theorem classifyBody_of_passThrough (input : BodyInput)
    (h : isPassThrough input = true) : classifyBody input = input := by
  cases input <;> first | rfl | exact absurd h (by simp [isPassThrough])

/-- C6: for every endpoint and argument list, the body attached by
`toRequestInit` (draft 1) and by `toRequestBody` (draft 0) is: absent
(`nullB`) when the body selector returns `null`; exactly the selector's
output, unchanged, when it is a pass-through wire value (text, binary
buffer, buffer view, stream, multipart form payload, URL-encoded parameter
set); and the `JSON.stringify` text of the value for every other output. -/
theorem c6_body_classification (e : Draft1.Endpoint) (e0 : Draft0.Endpoint)
    (data : List JsValue) :
    (e.info.inputSelector data = .nullB → (e.toRequestInit data).body = .nullB) ∧
    (isPassThrough (e.info.inputSelector data) = true →
      (e.toRequestInit data).body = e.info.inputSelector data) ∧
    (∀ v : JsValue, e.info.inputSelector data = .jsonValue v →
      (e.toRequestInit data).body = .textB (stringify v)) ∧
    (e0.init.inputSelector data = .nullB → e0.toRequestBody data = .nullB) ∧
    (isPassThrough (e0.init.inputSelector data) = true →
      e0.toRequestBody data = e0.init.inputSelector data) ∧
    (∀ v : JsValue, e0.init.inputSelector data = .jsonValue v →
      e0.toRequestBody data = .textB (stringify v)) := by
  refine ⟨?_, ?_, ?_, ?_, ?_, ?_⟩
  · intro h
    simp [Draft1.Endpoint.toRequestInit, h, classifyBody]
  · intro h
    simp only [Draft1.Endpoint.toRequestInit]
    exact classifyBody_of_passThrough _ h
  · intro v h
    simp [Draft1.Endpoint.toRequestInit, h, classifyBody]
  · intro h
    simp [Draft0.Endpoint.toRequestBody, h, classifyBody]
  · intro h
    simp only [Draft0.Endpoint.toRequestBody]
    exact classifyBody_of_passThrough _ h
  · intro v h
    simp [Draft0.Endpoint.toRequestBody, h, classifyBody]

/-- A sample draft 1 configuration shared by concrete instantiations. -/
def sampleInfo1 : Draft1.EndpointInfo :=
  { url := "/".toList
    baseUrl := "https://api.example.com".toList
    method := .post
    headersGetter := fun _ => []
    inputSelector := fun _ => .nullB
    outputDecoder := fun j => .ok j
    options := none }

/-- A sample draft 0 configuration shared by concrete instantiations. -/
def sampleInit0 : Draft0.EndpointInit :=
  { url := "/".toList
    method := .get
    headers := fun _ => []
    options := none
    inputSelector := fun _ => .nullB
    outputDecoder := fun j => .ok j }

/-- Witness for C6: concrete endpoints whose selectors return `null`, a
raw text body, a URL-encoded parameter set and a plain object; the first
three are attached unchanged and the object is attached as its JSON text
`{"a":1}`. -/
theorem c6_body_classification_witness :
    ((⟨sampleInfo1⟩ : Draft1.Endpoint).toRequestInit []).body = .nullB ∧
    ((⟨{ sampleInfo1 with
          inputSelector := fun _ => .textB "hi".toList }⟩ : Draft1.Endpoint).toRequestInit
        []).body = .textB "hi".toList ∧
    ((⟨{ sampleInfo1 with
          inputSelector := fun _ =>
            .searchParamsB [("q".toList, "1".toList)] }⟩ : Draft1.Endpoint).toRequestInit
        []).body = .searchParamsB [("q".toList, "1".toList)] ∧
    ((⟨{ sampleInfo1 with
          inputSelector := fun _ =>
            .jsonValue (.objV [("a".toList, .numV 1)]) }⟩ : Draft1.Endpoint).toRequestInit
        []).body = .textB ['{', '"', 'a', '"', ':', '1', '}'] ∧
    ((⟨{ sampleInit0 with
          inputSelector := fun _ => .bufferB [0, 255] }⟩ : Draft0.Endpoint).toRequestBody
        []) = .bufferB [0, 255] :=
  ⟨(c6_body_classification ⟨sampleInfo1⟩ ⟨sampleInit0⟩ []).1 rfl,
   (c6_body_classification
      ⟨{ sampleInfo1 with inputSelector := fun _ => .textB "hi".toList }⟩
      ⟨sampleInit0⟩ []).2.1 rfl,
   (c6_body_classification
      ⟨{ sampleInfo1 with
          inputSelector := fun _ => .searchParamsB [("q".toList, "1".toList)] }⟩
      ⟨sampleInit0⟩ []).2.1 rfl,
   ((c6_body_classification
      ⟨{ sampleInfo1 with
          inputSelector := fun _ => .jsonValue (.objV [("a".toList, .numV 1)]) }⟩
      ⟨sampleInit0⟩ []).2.2.1 _ rfl).trans rfl,
   (c6_body_classification ⟨sampleInfo1⟩
      ⟨{ sampleInit0 with inputSelector := fun _ => .bufferB [0, 255] }⟩
      []).2.2.2.2.1 rfl⟩

theorem lookupS_cons {α : Type} (k0 : Str) (v0 : α) (rest : List (Str × α)) (k : Str) :
    lookupS ((k0, v0) :: rest) k = if k = k0 then some v0 else lookupS rest k := rfl

theorem lookupS_filter_congr {α : Type} (P : List (Str × α)) (k : Str)
    (p q : Str × α → Bool) (h : ∀ e : Str × α, e.1 = k → p e = q e) :
    lookupS (P.filter p) k = lookupS (P.filter q) k := by
  induction P with
  | nil => rfl
  | cons e P' ih =>
    by_cases hk : e.1 = k
    · have hpq : p e = q e := h e hk
      cases hp : p e with
      | true =>
        rw [List.filter_cons_of_pos hp, List.filter_cons_of_pos (hpq ▸ hp)]
        obtain ⟨k', v'⟩ := e
        simp only at hk
        simp [lookupS, hk]
      | false =>
        rw [List.filter_cons_of_neg (by simp [hp]),
          List.filter_cons_of_neg (by simp [hpq ▸ hp])]
        exact ih
    · cases hp : p e with
      | true =>
        cases hq : q e with
        | true =>
          rw [List.filter_cons_of_pos hp, List.filter_cons_of_pos hq]
          obtain ⟨k', v'⟩ := e
          simp only at hk
          simp only [lookupS, if_neg (fun hh : k = k' => hk hh.symm)]
          exact ih
        | false =>
          rw [List.filter_cons_of_pos hp, List.filter_cons_of_neg (by simp [hq])]
          obtain ⟨k', v'⟩ := e
          simp only at hk
          simp only [lookupS, if_neg (fun hh : k = k' => hk hh.symm)]
          exact ih
      | false =>
        cases hq : q e with
        | true =>
          rw [List.filter_cons_of_neg (by simp [hp]), List.filter_cons_of_pos hq]
          obtain ⟨k', v'⟩ := e
          simp only at hk
          simp only [lookupS, if_neg (fun hh : k = k' => hk hh.symm)]
          exact ih.symm ▸ ih
        | false =>
          rw [List.filter_cons_of_neg (by simp [hp]),
            List.filter_cons_of_neg (by simp [hq])]
          exact ih

theorem lookupS_jsSpread (a b : HeadersMap) (k : Str) :
    lookupS (jsSpread a b) k =
      match lookupS b k with
      | some v => some v
      | none => lookupS a k := by
  induction a with
  | nil =>
    have hfilter : (b.filter fun q => (lookupS ([] : HeadersMap) q.1).isNone) = b := by
      have : (fun q : Str × Str => (lookupS ([] : HeadersMap) q.1).isNone)
          = fun _ => true := by
        funext q
        rfl
      rw [this, List.filter_true]
    simp only [jsSpread, List.map_nil, List.nil_append, hfilter]
    cases hb : lookupS b k <;> simp [hb, lookupS]
  | cons e a' ih =>
    obtain ⟨k', v'⟩ := e
    by_cases hk : k = k'
    · subst hk
      simp only [jsSpread, List.map_cons, List.cons_append, lookupS, if_pos rfl]
      cases hb : lookupS b k <;> simp [hb, lookupS]
    · have hcong :
        lookupS (b.filter fun q => (lookupS ((k', v') :: a') q.1).isNone) k
          = lookupS (b.filter fun q => (lookupS a' q.1).isNone) k := by
        apply lookupS_filter_congr
        intro e he
        rw [he]
        simp [lookupS, if_neg hk]
      have h1 : jsSpread ((k', v') :: a') b
          = (k', (lookupS b k').getD v')
            :: (a'.map (fun p => (p.1, (lookupS b p.1).getD p.2))
                ++ b.filter (fun q => (lookupS ((k', v') :: a') q.1).isNone)) := rfl
      rw [h1, lookupS_cons, if_neg hk, lookupS_append, hcong, ← lookupS_append]
      have ih' : lookupS
          (a'.map (fun p => (p.1, (lookupS b p.1).getD p.2))
            ++ b.filter (fun q => (lookupS a' q.1).isNone)) k
          = match lookupS b k with
            | some v => some v
            | none => lookupS a' k := ih
      rw [ih']
      cases hb : lookupS b k <;> simp [hb, lookupS_cons, if_neg hk]

/-- C7: the `headers` builder operation of draft 1 has two modes.  Static
mapping mode: the new provider returns the spread-merge of the previous
provider's result with the mapping — on every key the mapping's entry wins,
and keys absent from the mapping fall back to the previous provider — so
`base.headers({A:"1"}).headers({A:"2", B:"3"})` has effective headers
`{A:"2", B:"3"}`.  Factory mode: the new provider discards the previous one
entirely and invokes the factory afresh on each request. -/
theorem c7_headers_two_modes :
    (∀ (b : Draft1.Builder) (M : HeadersMap) (k : Str),
      (∀ v : Str, lookupS M k = some v →
        lookupS ((b.headers (.mapping M)).info.headersGetter ()) k = some v) ∧
      (lookupS M k = none →
        lookupS ((b.headers (.mapping M)).info.headersGetter ()) k
          = lookupS (b.info.headersGetter ()) k)) ∧
    (∀ (b : Draft1.Builder) (f : Unit → HeadersMap) (u : Unit),
      (b.headers (.factory f)).info.headersGetter u = f ()) ∧
    (((Draft1.Endpoint.base "https://api.example.com".toList none).headers
          (.mapping [("A".toList, "1".toList)])).headers
          (.mapping [("A".toList, "2".toList), ("B".toList, "3".toList)])).info.headersGetter
        ()
      = [("A".toList, "2".toList), ("B".toList, "3".toList)] := by
  refine ⟨?_, ?_, ?_⟩
  · intro b M k
    constructor
    · intro v hv
      simp only [Draft1.Builder.headers]
      rw [lookupS_jsSpread, hv]
    · intro hnone
      simp only [Draft1.Builder.headers]
      rw [lookupS_jsSpread, hnone]
  · intro b f u
    rfl
  · decide

/-- Witness for C7: on the concrete merged builder, the mapping's entry
wins for key `A`, a key absent from both mappings falls back to the (empty)
base provider, and a factory installed on top of the merged builder
replaces everything with its own fresh result. -/
theorem c7_headers_two_modes_witness :
    lookupS
        ((((Draft1.Endpoint.base "https://api.example.com".toList none).headers
            (.mapping [("A".toList, "1".toList)])).headers
            (.mapping [("A".toList, "2".toList), ("B".toList, "3".toList)])).info.headersGetter
          ())
        "A".toList = some "2".toList ∧
    lookupS
        ((((Draft1.Endpoint.base "https://api.example.com".toList none).headers
            (.mapping [("A".toList, "1".toList)])).headers
            (.mapping [("A".toList, "2".toList), ("B".toList, "3".toList)])).info.headersGetter
          ())
        "C".toList
      = lookupS
          (((Draft1.Endpoint.base "https://api.example.com".toList none).headers
              (.mapping [("A".toList, "1".toList)])).info.headersGetter ())
          "C".toList ∧
    ((((Draft1.Endpoint.base "https://api.example.com".toList none).headers
          (.mapping [("A".toList, "1".toList)])).headers
          (.factory fun _ => [("X".toList, "9".toList)])).info.headersGetter ())
      = [("X".toList, "9".toList)] :=
  ⟨(c7_headers_two_modes.1
      ((Draft1.Endpoint.base "https://api.example.com".toList none).headers
        (.mapping [("A".toList, "1".toList)]))
      [("A".toList, "2".toList), ("B".toList, "3".toList)] "A".toList).1
      "2".toList (by decide),
   (c7_headers_two_modes.1
      ((Draft1.Endpoint.base "https://api.example.com".toList none).headers
        (.mapping [("A".toList, "1".toList)]))
      [("A".toList, "2".toList), ("B".toList, "3".toList)] "C".toList).2
      (by decide),
   c7_headers_two_modes.2.1
      ((Draft1.Endpoint.base "https://api.example.com".toList none).headers
        (.mapping [("A".toList, "1".toList)]))
      (fun _ => [("X".toList, "9".toList)]) ()⟩

/-!
Well-formed path templates, as token lists.  The spec's template syntax
(section 6) is a `/`-separated string whose parameter segments are exactly
`{identifier}` tokens; a template is modelled as a list of literal and
parameter tokens, rendered back to the raw string the code operates on.
This gives the substitution theorems their hypothesis "a template whose
parameter names are exactly p1...pn".
-/

/-- A template token: a literal piece of the path, or a `{name}`
parameter. -/
inductive Tok where
  | lit : Str → Tok
  | par : Str → Tok

/-- The parameter names of a token list, in template order. -/
def tokNames : List Tok → List Str
  | [] => []
  | .lit _ :: rest => tokNames rest
  | .par n :: rest => n :: tokNames rest

/-- Render one token the way draft 0's `toUrl` sees it: a parameter whose
name has a value in `vals` appears as that value, an unresolved parameter
appears as the literal `{name}` text. -/
def Tok.renderA (vals : List (Str × Str)) : Tok → Str
  | .lit s => s
  | .par n =>
    match lookupS vals n with
    | some v => v
    | none => '{' :: (n ++ ['}'])

/-- Render a token list (draft 0 shape: parameter tokens are `{name}`,
values substitute the whole token). -/
def renderA (vals : List (Str × Str)) : List Tok → Str
  | [] => []
  | t :: rest => Tok.renderA vals t ++ renderA vals rest

/-- Well-formedness of one token for the draft 0 shape: literals contain no
left brace, names contain no braces. -/
def tokWfA : Tok → Bool
  | .lit s => decide ('{' ∉ s)
  | .par n => decide ('{' ∉ n) && decide ('}' ∉ n)

/-- A well-formed draft 0 template. -/
def WfA (ts : List Tok) : Prop := ∀ t ∈ ts, tokWfA t = true

instance (ts : List Tok) : Decidable (WfA ts) :=
  inferInstanceAs (Decidable (∀ t ∈ ts, tokWfA t = true))

theorem tokWfA_lit {s : Str} (h : tokWfA (.lit s) = true) : '{' ∉ s := by
  simpa [tokWfA] using h

theorem tokWfA_par {n : Str} (h : tokWfA (.par n) = true) : braceFreeName n := by
  have h' := h
  simp only [tokWfA, Bool.and_eq_true, decide_eq_true_eq] at h'
  exact ⟨h'.1, h'.2⟩

theorem renderA_consVal_of_notMem (k v : Str) (vals : List (Str × Str))
    (ts : List Tok) (h : k ∉ tokNames ts) :
    renderA ((k, v) :: vals) ts = renderA vals ts := by
  induction ts with
  | nil => rfl
  | cons t rest ih =>
    cases t with
    | lit s =>
      have hr : k ∉ tokNames rest := by simpa [tokNames] using h
      simp [renderA, Tok.renderA, ih hr]
    | par n =>
      have hnk : n ≠ k := fun he => h (List.mem_cons.mpr (Or.inl he.symm))
      have hr : k ∉ tokNames rest := fun hm => h (List.mem_cons.mpr (Or.inr hm))
      simp only [renderA, Tok.renderA, lookupS_cons, if_neg hnk, ih hr]

theorem wfA_name_braceFree (ts : List Tok) (hwf : WfA ts) (n : Str)
    (h : n ∈ tokNames ts) : braceFreeName n := by
  induction ts with
  | nil => simp [tokNames] at h
  | cons t rest ih =>
    have hwfr : WfA rest := fun t ht => hwf t (List.mem_cons_of_mem _ ht)
    cases t with
    | lit s => exact ih hwfr h
    | par m =>
      rcases List.mem_cons.mp h with h1 | h2
      · subst h1
        exact tokWfA_par (hwf _ (List.mem_cons_self _ _))
      · exact ih hwfr h2

theorem substStepA (k v : Str) (ts : List Tok) (P : List (Str × Str))
    (hk : braceFreeName k)
    (hwf : WfA ts) (hnd : (tokNames ts).Nodup)
    (hP : ∀ q ∈ P, '{' ∉ q.2)
    (hPk : lookupS P k = none)
    (hmem : k ∈ tokNames ts) :
    replaceFirst (renderA P ts) ('{' :: (k ++ ['}'])) v = renderA ((k, v) :: P) ts := by
  induction ts with
  | nil => simp [tokNames] at hmem
  | cons t rest ih =>
    have hwfr : WfA rest := fun t ht => hwf t (List.mem_cons_of_mem _ ht)
    cases t with
    | lit s =>
      have hs : '{' ∉ s := tokWfA_lit (hwf _ (List.mem_cons_self _ _))
      have hndr : (tokNames rest).Nodup := hnd
      have hmemr : k ∈ tokNames rest := hmem
      have hstep : replaceFirst (s ++ renderA P rest) ('{' :: (k ++ ['}'])) v
          = s ++ replaceFirst (renderA P rest) ('{' :: (k ++ ['}'])) v :=
        replaceFirst_append_of_noOcc _ s _ v
          (noOcc_of_head_notMem _ s _ '{' rfl hs)
      calc replaceFirst (renderA P (.lit s :: rest)) ('{' :: (k ++ ['}'])) v
          = s ++ replaceFirst (renderA P rest) ('{' :: (k ++ ['}'])) v := hstep
        _ = s ++ renderA ((k, v) :: P) rest := by
            rw [ih hwfr hndr hmemr]
        _ = renderA ((k, v) :: P) (.lit s :: rest) := rfl
    | par n =>
      by_cases hnk : n = k
      · subst hnk
        have hnotr : n ∉ tokNames rest := by
          have := hnd
          simp only [tokNames, List.nodup_cons] at this
          exact this.1
        have hblock : Tok.renderA P (.par n) = '{' :: (n ++ ['}']) := by
          simp [Tok.renderA, hPk]
        have hsplit : replaceFirst (('{' :: (n ++ ['}'])) ++ renderA P rest)
            ('{' :: (n ++ ['}'])) v = v ++ renderA P rest := by
          unfold replaceFirst
          rw [splitFirst_self_append]
          rfl
        calc replaceFirst (renderA P (.par n :: rest)) ('{' :: (n ++ ['}'])) v
            = replaceFirst (('{' :: (n ++ ['}'])) ++ renderA P rest)
                ('{' :: (n ++ ['}'])) v := by rw [show renderA P (.par n :: rest)
                  = Tok.renderA P (.par n) ++ renderA P rest from rfl, hblock]
          _ = v ++ renderA P rest := hsplit
          _ = v ++ renderA ((n, v) :: P) rest := by
              rw [renderA_consVal_of_notMem n v P rest hnotr]
          _ = renderA ((n, v) :: P) (.par n :: rest) := by
              simp [renderA, Tok.renderA, lookupS_cons]
      · have hndr : (tokNames rest).Nodup := by
          have := hnd
          simp only [tokNames, List.nodup_cons] at this
          exact this.2
        have hmemr : k ∈ tokNames rest := by
          rcases List.mem_cons.mp hmem with h1 | h2
          · exact absurd h1.symm hnk
          · exact h2
        have hrhsrest := ih hwfr hndr hmemr
        have hrhs : Tok.renderA ((k, v) :: P) (.par n) = Tok.renderA P (.par n) := by
          simp [Tok.renderA, lookupS_cons, if_neg hnk]
        cases hln : lookupS P n with
        | some w =>
          have hw : '{' ∉ w := hP (n, w) (mem_of_lookupS_some P n w hln)
          have hblock : Tok.renderA P (.par n) = w := by simp [Tok.renderA, hln]
          calc replaceFirst (renderA P (.par n :: rest)) ('{' :: (k ++ ['}'])) v
              = replaceFirst (w ++ renderA P rest) ('{' :: (k ++ ['}'])) v := by
                rw [show renderA P (.par n :: rest)
                  = Tok.renderA P (.par n) ++ renderA P rest from rfl, hblock]
            _ = w ++ replaceFirst (renderA P rest) ('{' :: (k ++ ['}'])) v :=
                replaceFirst_append_of_noOcc _ w _ v
                  (noOcc_of_head_notMem _ w _ '{' rfl hw)
            _ = w ++ renderA ((k, v) :: P) rest := by rw [hrhsrest]
            _ = renderA ((k, v) :: P) (.par n :: rest) := by
                rw [show renderA ((k, v) :: P) (.par n :: rest)
                  = Tok.renderA ((k, v) :: P) (.par n) ++ renderA ((k, v) :: P) rest
                  from rfl, hrhs, hblock]
        | none =>
          have hn : braceFreeName n := tokWfA_par (hwf _ (List.mem_cons_self _ _))
          have hblock : Tok.renderA P (.par n) = '{' :: (n ++ ['}']) := by
            simp [Tok.renderA, hln]
          calc replaceFirst (renderA P (.par n :: rest)) ('{' :: (k ++ ['}'])) v
              = replaceFirst (('{' :: (n ++ ['}'])) ++ renderA P rest)
                  ('{' :: (k ++ ['}'])) v := by
                rw [show renderA P (.par n :: rest)
                  = Tok.renderA P (.par n) ++ renderA P rest from rfl, hblock]
            _ = ('{' :: (n ++ ['}'])) ++ replaceFirst (renderA P rest)
                  ('{' :: (k ++ ['}'])) v :=
                replaceFirst_append_of_noOcc _ _ _ v
                  (noOcc_parA k n _ hk hn (fun he => hnk (he.symm ▸ rfl)))
            _ = ('{' :: (n ++ ['}'])) ++ renderA ((k, v) :: P) rest := by rw [hrhsrest]
            _ = renderA ((k, v) :: P) (.par n :: rest) := by
                rw [show renderA ((k, v) :: P) (.par n :: rest)
                  = Tok.renderA ((k, v) :: P) (.par n) ++ renderA ((k, v) :: P) rest
                  from rfl, hrhs, hblock]

theorem lookupS_isSome_of_mem_keys {α : Type} (P : List (Str × α)) (k : Str)
    (h : k ∈ P.map Prod.fst) : (lookupS P k).isSome = true := by
  induction P with
  | nil => simp at h
  | cons q P' ih =>
    obtain ⟨k', v'⟩ := q
    by_cases hk : k = k'
    · rw [lookupS_cons, if_pos hk]
      rfl
    · have h' : k ∈ P'.map Prod.fst := by
        rw [List.map_cons] at h
        rcases List.mem_cons.mp h with h1 | h2
        · exact absurd h1 hk
        · exact h2
      simp only [lookupS_cons, if_neg hk]
      exact ih h'

theorem renderA_congr (v1 v2 : List (Str × Str)) (ts : List Tok)
    (h : ∀ n ∈ tokNames ts, lookupS v1 n = lookupS v2 n) :
    renderA v1 ts = renderA v2 ts := by
  induction ts with
  | nil => rfl
  | cons t rest ih =>
    have hr : ∀ n ∈ tokNames rest, lookupS v1 n = lookupS v2 n := by
      intro n hn
      cases t with
      | lit s => exact h n hn
      | par m => exact h n (List.mem_cons.mpr (Or.inr hn))
    cases t with
    | lit s => simp [renderA, Tok.renderA, ih hr]
    | par m =>
      have hm := h m (List.mem_cons.mpr (Or.inl rfl))
      simp [renderA, Tok.renderA, hm, ih hr]

theorem renderA_noLB (vals : List (Str × Str)) (ts : List Tok)
    (hwf : WfA ts) (hvals : ∀ q ∈ vals, '{' ∉ q.2)
    (hcover : ∀ n ∈ tokNames ts, (lookupS vals n).isSome = true) :
    '{' ∉ renderA vals ts := by
  induction ts with
  | nil => simp [renderA]
  | cons t rest ih =>
    have hwfr : WfA rest := fun t ht => hwf t (List.mem_cons_of_mem _ ht)
    intro hmem
    cases t with
    | lit s =>
      have hs : '{' ∉ s := tokWfA_lit (hwf _ (List.mem_cons_self _ _))
      have hcr : ∀ n ∈ tokNames rest, (lookupS vals n).isSome = true := hcover
      rcases List.mem_append.mp hmem with h1 | h2
      · exact hs h1
      · exact ih hwfr hcr h2
    | par m =>
      have hcr : ∀ n ∈ tokNames rest, (lookupS vals n).isSome = true :=
        fun n hn => hcover n (List.mem_cons.mpr (Or.inr hn))
      have hms := hcover m (List.mem_cons.mpr (Or.inl rfl))
      obtain ⟨w, hw⟩ := Option.isSome_iff_exists.mp hms
      have hwv : '{' ∉ w := hvals (m, w) (mem_of_lookupS_some vals m w hw)
      have hblock : Tok.renderA vals (.par m) = w := by simp [Tok.renderA, hw]
      rcases List.mem_append.mp (by
          rw [show renderA vals (.par m :: rest)
            = Tok.renderA vals (.par m) ++ renderA vals rest from rfl, hblock] at hmem
          exact hmem) with h1 | h2
      · exact hwv h1
      · exact ih hwfr hcr h2

theorem toUrlA_fold (ts : List Tok) (hwf : WfA ts) :
    ∀ (ps P : List (Str × Str)),
      (tokNames ts).Nodup →
      (∀ q ∈ P, '{' ∉ q.2) →
      (∀ q ∈ ps, braceFreeName q.1 ∧ '{' ∉ q.2) →
      (ps.map Prod.fst).Nodup →
      (∀ q ∈ ps, lookupS P q.1 = none) →
      (∀ q ∈ ps, q.1 ∈ tokNames ts) →
      ps.foldl (fun u p => replaceFirst u ('{' :: (p.1 ++ ['}'])) p.2) (renderA P ts)
        = renderA (ps.reverse ++ P) ts := by
  intro ps
  induction ps with
  | nil =>
    intro P _ _ _ _ _ _
    simp
  | cons q ps' ih =>
    obtain ⟨k, v⟩ := q
    intro P hnd hP hps hndk hnone hmem
    have hkmem : (k, v) ∈ (k, v) :: ps' := List.mem_cons_self _ _
    have hstep := substStepA k v ts P (hps _ hkmem).1 hwf hnd hP (hnone _ hkmem)
      (hmem _ hkmem)
    rw [List.foldl_cons,
      show replaceFirst (renderA P ts) ('{' :: ((k, v).1 ++ ['}'])) (k, v).2
        = renderA ((k, v) :: P) ts from hstep]
    have hkeytail : k ∉ ps'.map Prod.fst := by
      have := hndk
      simp only [List.map_cons, List.nodup_cons] at this
      exact this.1
    have htail := ih ((k, v) :: P) hnd
      (by
        intro q hq
        rcases List.mem_cons.mp hq with h1 | h2
        · rw [h1]
          exact (hps _ hkmem).2
        · exact hP q h2)
      (fun q hq => hps q (List.mem_cons_of_mem _ hq))
      (by
        have := hndk
        simp only [List.map_cons, List.nodup_cons] at this
        exact this.2)
      (by
        intro q hq
        have hqk : q.1 ≠ k := by
          intro he
          exact hkeytail (he ▸ List.mem_map_of_mem Prod.fst hq)
        rw [lookupS_cons, if_neg hqk]
        exact hnone q (List.mem_cons_of_mem _ hq))
      (fun q hq => hmem q (List.mem_cons_of_mem _ hq))
    rw [htail, List.reverse_cons, List.append_assoc]
    rfl

/-- C9 (amended): for a well-formed template with pairwise-distinct
parameter names, and a values mapping whose keys are exactly those names
and whose values contain no left brace, draft 0's `toUrl` yields the
template with every `{name}` placeholder replaced, in place and in the
template's left-to-right order, by the supplied value for `name`
(`renderA params ts` renders each token at its original position, literal
tokens unchanged and each parameter token as its supplied value); every
required name does have a value, and no left brace — hence no literal
`{name}` token — remains anywhere in the output. -/
theorem c9_subst_amended (ts : List Tok) (params : List (Str × Str))
    (hwf : WfA ts) (hnd : (tokNames ts).Nodup)
    (hperm : (params.map Prod.fst).Perm (tokNames ts))
    (hvals : ∀ q ∈ params, '{' ∉ q.2) :
    ((Draft0.Endpoint.url (renderA [] ts)).build).toUrl params = renderA params ts ∧
    (∀ n ∈ tokNames ts, (lookupS params n).isSome = true) ∧
    '{' ∉ renderA params ts := by
  have hkeysnd : (params.map Prod.fst).Nodup := hperm.nodup_iff.mpr hnd
  have hkeymem : ∀ q ∈ params, q.1 ∈ tokNames ts := fun q hq =>
    hperm.mem_iff.mp (List.mem_map_of_mem Prod.fst hq)
  have hcover : ∀ n ∈ tokNames ts, (lookupS params n).isSome = true := fun n hn =>
    lookupS_isSome_of_mem_keys params n (hperm.mem_iff.mpr hn)
  have hbrace : ∀ q ∈ params, braceFreeName q.1 ∧ '{' ∉ q.2 := fun q hq =>
    ⟨wfA_name_braceFree ts hwf _ (hkeymem q hq), hvals q hq⟩
  have hfold := toUrlA_fold ts hwf params [] hnd (by intro q hq; simp at hq)
    hbrace hkeysnd (fun q _ => rfl) hkeymem
  have hrev : renderA (params.reverse ++ []) ts = renderA params ts := by
    rw [List.append_nil]
    exact renderA_congr _ _ ts fun n _ => lookupS_reverse_of_nodup params n hkeysnd
  refine ⟨?_, hcover, renderA_noLB params ts hwf hvals hcover⟩
  calc ((Draft0.Endpoint.url (renderA [] ts)).build).toUrl params
      = params.foldl (fun u p => replaceFirst u ('{' :: (p.1 ++ ['}'])) p.2)
          (renderA [] ts) := rfl
    _ = renderA (params.reverse ++ []) ts := hfold
    _ = renderA params ts := hrev

/-- C9 counterexample: on the template `/a/{x}/{y}` with the values mapping
`{x: "{y}", y: "B"}` — which covers exactly the parameter names — draft 0's
`toUrl` produces `/a/B/{y}`: the value supplied for `x` does not appear at
`x`'s placeholder position, and the literal token `{y}` remains in the
output, so the claim as stated (over every covering values mapping) is
false. -/
theorem c9_subst_counterexample :
    ((Draft0.Endpoint.url "/a/{x}/{y}".toList).build).toUrl
        [("x".toList, "{y}".toList), ("y".toList, "B".toList)]
      = "/a/B/{y}".toList ∧
    splitFirst "{y}".toList
        (((Draft0.Endpoint.url "/a/{x}/{y}".toList).build).toUrl
          [("x".toList, "{y}".toList), ("y".toList, "B".toList)]) ≠ none := by
  refine ⟨by decide, by decide⟩

/-- Witness for C9 (amended): the template `/api/{id}` rendered from
tokens, substituted with `{id: "42"}`, yields `/api/42`. -/
theorem c9_subst_amended_witness :
    renderA [] [Tok.lit "/api/".toList, Tok.par "id".toList] = "/api/{id}".toList ∧
    ((Draft0.Endpoint.url "/api/{id}".toList).build).toUrl
        [("id".toList, "42".toList)]
      = "/api/42".toList := by
  refine ⟨by decide, ?_⟩
  have h := (c9_subst_amended [Tok.lit "/api/".toList, Tok.par "id".toList]
    [("id".toList, "42".toList)] (by decide) (by decide) (by decide)
    (by decide)).1
  have htmpl : renderA ([] : List (Str × Str))
      [Tok.lit "/api/".toList, Tok.par "id".toList] = "/api/{id}".toList := by decide
  rw [htmpl] at h
  exact h.trans (by decide)

/-!
Draft 1 templates: parameter tokens carry their leading slash (`/{name}`),
matching both the scanning regex `(?<=\/\{)(\w+)(?=\})` and the replacement
`url.replace("/{" + name + "}", "/" + params[name])`.
-/

/-- Render one token the way draft 1's `toURL` sees it: a parameter token
is `/{name}` until substituted, and `/` followed by the value once
substituted. -/
def Tok.renderB (vals : List (Str × Str)) : Tok → Str
  | .lit s => s
  | .par n =>
    match lookupS vals n with
    | some v => '/' :: v
    | none => '/' :: '{' :: (n ++ ['}'])

/-- Render a draft 1 token list. -/
def renderB (vals : List (Str × Str)) : List Tok → Str
  | [] => []
  | t :: rest => Tok.renderB vals t ++ renderB vals rest

/-- Well-formedness of one token for the draft 1 shape: literals contain no
left brace, names are nonempty runs of regex word characters. -/
def tokWfB : Tok → Bool
  | .lit s => decide ('{' ∉ s)
  | .par n => !n.isEmpty && n.all isWordChar

/-- A well-formed draft 1 template. -/
def WfB (ts : List Tok) : Prop := ∀ t ∈ ts, tokWfB t = true

instance (ts : List Tok) : Decidable (WfB ts) :=
  inferInstanceAs (Decidable (∀ t ∈ ts, tokWfB t = true))

theorem tokWfB_lit {s : Str} (h : tokWfB (.lit s) = true) : '{' ∉ s := by
  simpa [tokWfB] using h

theorem isWordChar_facts {c : Char} (h : isWordChar c = true) :
    c ≠ '{' ∧ c ≠ '}' ∧ c ≠ '/' := by
  refine ⟨?_, ?_, ?_⟩ <;> rintro rfl <;> revert h <;> decide

theorem tokWfB_par {n : Str} (h : tokWfB (.par n) = true) :
    n ≠ [] ∧ ∀ c ∈ n, isWordChar c = true := by
  have h' := h
  simp only [tokWfB, Bool.and_eq_true, Bool.not_eq_true', List.all_eq_true] at h'
  refine ⟨?_, h'.2⟩
  intro he
  rw [he] at h'
  exact absurd h'.1 (by decide)

theorem tokWfB_par_name {n : Str} (h : tokWfB (.par n) = true) :
    braceFreeName n ∧ '/' ∉ n ∧ n ≠ [] := by
  obtain ⟨hne, hw⟩ := tokWfB_par h
  refine ⟨⟨?_, ?_⟩, ?_, hne⟩
  · intro hm
    exact absurd rfl (isWordChar_facts (hw _ hm)).1
  · intro hm
    exact absurd rfl (isWordChar_facts (hw _ hm)).2.1
  · intro hm
    exact absurd rfl (isWordChar_facts (hw _ hm)).2.2

theorem wfB_name (ts : List Tok) (hwf : WfB ts) (n : Str)
    (h : n ∈ tokNames ts) : tokWfB (.par n) = true := by
  induction ts with
  | nil => simp [tokNames] at h
  | cons t rest ih =>
    have hwfr : WfB rest := fun t ht => hwf t (List.mem_cons_of_mem _ ht)
    cases t with
    | lit s => exact ih hwfr h
    | par m =>
      rcases List.mem_cons.mp h with h1 | h2
      · subst h1
        exact hwf _ (List.mem_cons_self _ _)
      · exact ih hwfr h2

theorem renderB_head_ne_brace (vals : List (Str × Str)) (ts : List Tok)
    (hwf : WfB ts) : (renderB vals ts).head? ≠ some '{' := by
  induction ts with
  | nil => simp [renderB]
  | cons t rest ih =>
    have hwfr : WfB rest := fun t ht => hwf t (List.mem_cons_of_mem _ ht)
    cases t with
    | lit s =>
      cases s with
      | nil => exact ih hwfr
      | cons c s' =>
        have hc : c ≠ '{' := fun he =>
          tokWfB_lit (hwf _ (List.mem_cons_self _ _)) (he ▸ List.mem_cons_self c s')
        intro hcon
        exact hc (Option.some.inj hcon)
    | par n =>
      cases hln : lookupS vals n with
      | some w =>
        intro hcon
        rw [show renderB vals (.par n :: rest)
          = Tok.renderB vals (.par n) ++ renderB vals rest from rfl] at hcon
        simp only [Tok.renderB, hln] at hcon
        exact absurd (Option.some.inj hcon).symm (by decide)
      | none =>
        intro hcon
        rw [show renderB vals (.par n :: rest)
          = Tok.renderB vals (.par n) ++ renderB vals rest from rfl] at hcon
        simp only [Tok.renderB, hln] at hcon
        exact absurd (Option.some.inj hcon).symm (by decide)

theorem renderB_consVal_of_notMem (k v : Str) (vals : List (Str × Str))
    (ts : List Tok) (h : k ∉ tokNames ts) :
    renderB ((k, v) :: vals) ts = renderB vals ts := by
  induction ts with
  | nil => rfl
  | cons t rest ih =>
    cases t with
    | lit s =>
      have hr : k ∉ tokNames rest := h
      simp [renderB, Tok.renderB, ih hr]
    | par n =>
      have hnk : n ≠ k := fun he => h (List.mem_cons.mpr (Or.inl he.symm))
      have hr : k ∉ tokNames rest := fun hm => h (List.mem_cons.mpr (Or.inr hm))
      simp only [renderB, Tok.renderB, lookupS_cons, if_neg hnk, ih hr]

theorem substStepB (k v : Str) (ts : List Tok) (P : List (Str × Str))
    (hk : tokWfB (.par k) = true)
    (hwf : WfB ts) (hnd : (tokNames ts).Nodup)
    (hP : ∀ q ∈ P, '{' ∉ q.2)
    (hPk : lookupS P k = none)
    (hmem : k ∈ tokNames ts) :
    replaceFirst (renderB P ts) ('/' :: '{' :: (k ++ ['}'])) ('/' :: v)
      = renderB ((k, v) :: P) ts := by
  obtain ⟨hkname, hkslash, hkne⟩ := tokWfB_par_name hk
  induction ts with
  | nil => simp [tokNames] at hmem
  | cons t rest ih =>
    have hwfr : WfB rest := fun t ht => hwf t (List.mem_cons_of_mem _ ht)
    cases t with
    | lit s =>
      have hs : '{' ∉ s := tokWfB_lit (hwf _ (List.mem_cons_self _ _))
      have hstep : replaceFirst (s ++ renderB P rest) ('/' :: '{' :: (k ++ ['}']))
          ('/' :: v) = s ++ replaceFirst (renderB P rest) ('/' :: '{' :: (k ++ ['}'])) ('/' :: v) :=
        replaceFirst_append_of_noOcc _ s _ _
          (noOcc_slashBrace _ s _ ⟨k ++ ['}'], rfl⟩ hs (renderB_head_ne_brace P rest hwfr))
      calc replaceFirst (renderB P (.lit s :: rest)) ('/' :: '{' :: (k ++ ['}'])) ('/' :: v)
          = s ++ replaceFirst (renderB P rest) ('/' :: '{' :: (k ++ ['}'])) ('/' :: v) := hstep
        _ = s ++ renderB ((k, v) :: P) rest := by rw [ih hwfr hnd hmem]
        _ = renderB ((k, v) :: P) (.lit s :: rest) := rfl
    | par n =>
      by_cases hnk : n = k
      · subst hnk
        have hnotr : n ∉ tokNames rest := by
          have := hnd
          simp only [tokNames, List.nodup_cons] at this
          exact this.1
        have hblock : Tok.renderB P (.par n) = '/' :: '{' :: (n ++ ['}']) := by
          simp [Tok.renderB, hPk]
        have hsplit : replaceFirst (('/' :: '{' :: (n ++ ['}'])) ++ renderB P rest)
            ('/' :: '{' :: (n ++ ['}'])) ('/' :: v) = ('/' :: v) ++ renderB P rest := by
          unfold replaceFirst
          rw [splitFirst_self_append]
          rfl
        calc replaceFirst (renderB P (.par n :: rest)) ('/' :: '{' :: (n ++ ['}'])) ('/' :: v)
            = replaceFirst (('/' :: '{' :: (n ++ ['}'])) ++ renderB P rest)
                ('/' :: '{' :: (n ++ ['}'])) ('/' :: v) := by
              rw [show renderB P (.par n :: rest)
                = Tok.renderB P (.par n) ++ renderB P rest from rfl, hblock]
          _ = ('/' :: v) ++ renderB P rest := hsplit
          _ = ('/' :: v) ++ renderB ((n, v) :: P) rest := by
              rw [renderB_consVal_of_notMem n v P rest hnotr]
          _ = renderB ((n, v) :: P) (.par n :: rest) := by
              simp [renderB, Tok.renderB, lookupS_cons]
      · have hndr : (tokNames rest).Nodup := by
          have := hnd
          simp only [tokNames, List.nodup_cons] at this
          exact this.2
        have hmemr : k ∈ tokNames rest := by
          rcases List.mem_cons.mp hmem with h1 | h2
          · exact absurd h1.symm hnk
          · exact h2
        have hrhsrest := ih hwfr hndr hmemr
        have hrhs : Tok.renderB ((k, v) :: P) (.par n) = Tok.renderB P (.par n) := by
          simp [Tok.renderB, lookupS_cons, if_neg hnk]
        cases hln : lookupS P n with
        | some w =>
          have hw : '{' ∉ w := hP (n, w) (mem_of_lookupS_some P n w hln)
          have hw' : '{' ∉ '/' :: w := by
            intro hm
            rcases List.mem_cons.mp hm with h1 | h2
            · exact absurd h1 (by decide)
            · exact hw h2
          have hblock : Tok.renderB P (.par n) = '/' :: w := by simp [Tok.renderB, hln]
          calc replaceFirst (renderB P (.par n :: rest)) ('/' :: '{' :: (k ++ ['}'])) ('/' :: v)
              = replaceFirst (('/' :: w) ++ renderB P rest)
                  ('/' :: '{' :: (k ++ ['}'])) ('/' :: v) := by
                rw [show renderB P (.par n :: rest)
                  = Tok.renderB P (.par n) ++ renderB P rest from rfl, hblock]
            _ = ('/' :: w) ++ replaceFirst (renderB P rest)
                  ('/' :: '{' :: (k ++ ['}'])) ('/' :: v) :=
                replaceFirst_append_of_noOcc _ _ _ _
                  (noOcc_slashBrace _ ('/' :: w) _ ⟨k ++ ['}'], rfl⟩ hw'
                    (renderB_head_ne_brace P rest hwfr))
            _ = ('/' :: w) ++ renderB ((k, v) :: P) rest := by rw [hrhsrest]
            _ = renderB ((k, v) :: P) (.par n :: rest) := by
                rw [show renderB ((k, v) :: P) (.par n :: rest)
                  = Tok.renderB ((k, v) :: P) (.par n) ++ renderB ((k, v) :: P) rest
                  from rfl, hrhs, hblock]
        | none =>
          obtain ⟨hnname, hnslash, _⟩ :=
            tokWfB_par_name (hwf _ (List.mem_cons_self _ _))
          have hblock : Tok.renderB P (.par n) = '/' :: '{' :: (n ++ ['}']) := by
            simp [Tok.renderB, hln]
          calc replaceFirst (renderB P (.par n :: rest)) ('/' :: '{' :: (k ++ ['}'])) ('/' :: v)
              = replaceFirst (('/' :: '{' :: (n ++ ['}'])) ++ renderB P rest)
                  ('/' :: '{' :: (k ++ ['}'])) ('/' :: v) := by
                rw [show renderB P (.par n :: rest)
                  = Tok.renderB P (.par n) ++ renderB P rest from rfl, hblock]
            _ = ('/' :: '{' :: (n ++ ['}'])) ++ replaceFirst (renderB P rest)
                  ('/' :: '{' :: (k ++ ['}'])) ('/' :: v) :=
                replaceFirst_append_of_noOcc _ _ _ _
                  (noOcc_parB k n _ hkname.2 hnname hnslash
                    (fun he => hnk (he.symm ▸ rfl)))
            _ = ('/' :: '{' :: (n ++ ['}'])) ++ renderB ((k, v) :: P) rest := by
                rw [hrhsrest]
            _ = renderB ((k, v) :: P) (.par n :: rest) := by
                rw [show renderB ((k, v) :: P) (.par n :: rest)
                  = Tok.renderB ((k, v) :: P) (.par n) ++ renderB ((k, v) :: P) rest
                  from rfl, hrhs, hblock]

theorem getParamNames_cons (c : Char) (rest : Str) :
    getParamNames (c :: rest)
      = (if c = '/' ∧ rest.head? = some '{' then
          match scanName rest.tail with
          | some (n, _) => [n]
          | none => []
        else []) ++ getParamNames rest := rfl

theorem getParamNames_append_noSlash (B X : Str) (h : '/' ∉ B) :
    getParamNames (B ++ X) = getParamNames X := by
  induction B with
  | nil => rfl
  | cons c B' ih =>
    have hc : c ≠ '/' := fun he => h (he ▸ List.mem_cons_self c B')
    have hB' : '/' ∉ B' := fun hm => h (List.mem_cons_of_mem _ hm)
    rw [List.cons_append, getParamNames_cons, if_neg (fun hco => hc hco.1),
      List.nil_append]
    exact ih hB'

theorem getParamNames_append_lit (B X : Str) (hB : '{' ∉ B)
    (hX : X.head? ≠ some '{') :
    getParamNames (B ++ X) = getParamNames X := by
  induction B with
  | nil => rfl
  | cons c B' ih =>
    have hB' : '{' ∉ B' := fun hm => hB (List.mem_cons_of_mem _ hm)
    have hcond : ¬ (c = '/' ∧ (B' ++ X).head? = some '{') := by
      rintro ⟨_, h2⟩
      cases B' with
      | nil => exact hX h2
      | cons b' B'' =>
        have hb' : b' = '{' := Option.some.inj h2
        exact hB (hb' ▸ List.mem_cons_of_mem c (List.mem_cons_self b' B''))
    rw [List.cons_append, getParamNames_cons, if_neg hcond, List.nil_append]
    exact ih hB'

theorem takeWhile_word_append (n X : Str) (hw : ∀ c ∈ n, isWordChar c = true) :
    (n ++ '}' :: X).takeWhile isWordChar = n ∧
    (n ++ '}' :: X).dropWhile isWordChar = '}' :: X := by
  induction n with
  | nil =>
    constructor
    · rw [List.nil_append, List.takeWhile_cons]
      simp [show isWordChar '}' = false from by decide]
    · rw [List.nil_append, List.dropWhile_cons]
      simp [show isWordChar '}' = false from by decide]
  | cons c n' ih =>
    have hc : isWordChar c = true := hw c (List.mem_cons_self _ _)
    have ih' := ih (fun d hd => hw d (List.mem_cons_of_mem _ hd))
    constructor
    · rw [List.cons_append, List.takeWhile_cons, hc]
      simp only [ih'.1]
      simp
    · rw [List.cons_append, List.dropWhile_cons, hc]
      simp only [ih'.2]
      rfl

theorem scanName_word (n X : Str) (hn : n ≠ [])
    (hw : ∀ c ∈ n, isWordChar c = true) :
    scanName (n ++ '}' :: X) = some (n, X) := by
  obtain ⟨ht, hd⟩ := takeWhile_word_append n X hw
  unfold scanName
  simp only [ht, hd]
  rw [if_neg (by simpa [List.isEmpty_iff] using hn)]
  rfl

theorem getParamNames_par (n X : Str) (hn : n ≠ [])
    (hw : ∀ c ∈ n, isWordChar c = true) (hns : '/' ∉ n) :
    getParamNames ('/' :: '{' :: (n ++ '}' :: X)) = n :: getParamNames X := by
  rw [getParamNames_cons '/' ('{' :: (n ++ '}' :: X))]
  rw [if_pos ⟨rfl, rfl⟩]
  simp only [List.tail_cons, scanName_word n X hn hw]
  rw [getParamNames_cons '{' (n ++ '}' :: X),
    if_neg (fun hco : '{' = '/' ∧ _ => absurd hco.1 (by decide)), List.nil_append]
  rw [getParamNames_append_noSlash n ('}' :: X) hns]
  rw [getParamNames_cons '}' X,
    if_neg (fun hco : '}' = '/' ∧ _ => absurd hco.1 (by decide)), List.nil_append]
  rfl

theorem getParamNames_renderB (ts : List Tok) (hwf : WfB ts) :
    getParamNames (renderB [] ts) = tokNames ts := by
  induction ts with
  | nil => rfl
  | cons t rest ih =>
    have hwfr : WfB rest := fun t ht => hwf t (List.mem_cons_of_mem _ ht)
    cases t with
    | lit s =>
      have hs : '{' ∉ s := tokWfB_lit (hwf _ (List.mem_cons_self _ _))
      calc getParamNames (renderB [] (.lit s :: rest))
          = getParamNames (s ++ renderB [] rest) := rfl
        _ = getParamNames (renderB [] rest) :=
            getParamNames_append_lit s _ hs (renderB_head_ne_brace [] rest hwfr)
        _ = tokNames rest := ih hwfr
    | par n =>
      obtain ⟨hnname, hnslash, hnne⟩ :=
        tokWfB_par_name (hwf _ (List.mem_cons_self _ _))
      have hword := (tokWfB_par (hwf _ (List.mem_cons_self _ _))).2
      have hshape : renderB [] (.par n :: rest)
          = '/' :: '{' :: (n ++ '}' :: renderB [] rest) := by
        show Tok.renderB [] (.par n) ++ renderB [] rest = _
        simp [Tok.renderB, lookupS]
      rw [hshape, getParamNames_par n (renderB [] rest) hnne hword hnslash, ih hwfr]
      rfl

theorem renderB_congr (v1 v2 : List (Str × Str)) (ts : List Tok)
    (h : ∀ n ∈ tokNames ts, lookupS v1 n = lookupS v2 n) :
    renderB v1 ts = renderB v2 ts := by
  induction ts with
  | nil => rfl
  | cons t rest ih =>
    have hr : ∀ n ∈ tokNames rest, lookupS v1 n = lookupS v2 n := by
      intro n hn
      cases t with
      | lit s => exact h n hn
      | par m => exact h n (List.mem_cons.mpr (Or.inr hn))
    cases t with
    | lit s => simp [renderB, Tok.renderB, ih hr]
    | par m =>
      have hm := h m (List.mem_cons.mpr (Or.inl rfl))
      simp [renderB, Tok.renderB, hm, ih hr]

theorem lookupS_map_self (g : Str → Str) (ns : List Str) (m : Str) (h : m ∈ ns) :
    lookupS (ns.map (fun n => (n, g n))) m = some (g m) := by
  induction ns with
  | nil => simp at h
  | cons n ns' ih =>
    by_cases hm : m = n
    · subst hm
      rw [List.map_cons, lookupS_cons, if_pos rfl]
    · have h' : m ∈ ns' := by
        rcases List.mem_cons.mp h with h1 | h2
        · exact absurd h1 hm
        · exact h2
      rw [List.map_cons, lookupS_cons, if_neg hm]
      exact ih h'

theorem substUrl_fold (ts : List Tok) (params : List (Str × Str))
    (hwf : WfB ts) (hvals : ∀ q ∈ params, '{' ∉ q.2) :
    ∀ (ns : List Str) (P : List (Str × Str)),
      (tokNames ts).Nodup →
      ns.Nodup →
      (∀ n ∈ ns, n ∈ tokNames ts ∧ lookupS P n = none) →
      (∀ q ∈ P, '{' ∉ q.2) →
      ns.foldl
        (fun u n =>
          replaceFirst u ('/' :: '{' :: (n ++ ['}']))
            ('/' :: ((lookupS params n).getD undefinedChars)))
        (renderB P ts)
        = renderB
            ((ns.map (fun n => (n, (lookupS params n).getD undefinedChars))).reverse
              ++ P) ts := by
  intro ns
  induction ns with
  | nil =>
    intro P _ _ _ _
    simp
  | cons n ns' ih =>
    intro P hnd hnsnd hns hP
    have hnmem : n ∈ n :: ns' := List.mem_cons_self _ _
    have hv : '{' ∉ (lookupS params n).getD undefinedChars := by
      cases hl : lookupS params n with
      | some w =>
        simpa [hl] using hvals (n, w) (mem_of_lookupS_some params n w hl)
      | none =>
        simp only [hl, Option.getD_none]
        decide
    have hstep := substStepB n ((lookupS params n).getD undefinedChars) ts P
      (wfB_name ts hwf n (hns n hnmem).1) hwf hnd hP (hns n hnmem).2 (hns n hnmem).1
    rw [List.foldl_cons,
      show replaceFirst (renderB P ts) ('/' :: '{' :: (n ++ ['}']))
          ('/' :: ((lookupS params n).getD undefinedChars))
        = renderB ((n, (lookupS params n).getD undefinedChars) :: P) ts from hstep]
    have hntail : n ∉ ns' := by
      have := hnsnd
      simp only [List.nodup_cons] at this
      exact this.1
    have htail := ih ((n, (lookupS params n).getD undefinedChars) :: P) hnd
      (by
        have := hnsnd
        simp only [List.nodup_cons] at this
        exact this.2)
      (by
        intro m hm
        refine ⟨(hns m (List.mem_cons_of_mem _ hm)).1, ?_⟩
        have hmn : m ≠ n := fun he => hntail (he ▸ hm)
        rw [lookupS_cons, if_neg hmn]
        exact (hns m (List.mem_cons_of_mem _ hm)).2)
      (by
        intro q hq
        rcases List.mem_cons.mp hq with h1 | h2
        · rw [h1]
          exact hv
        · exact hP q h2)
    rw [htail, List.map_cons, List.reverse_cons, List.append_assoc]
    rfl

/-- C10 counterexample: on the template `/a/{x}/{y}` with values
`{x: "{y}", y: "B"}`, draft 1's substitution yields `/a/B/{y}`, not the
verbatim-splice result `/a/{y}/B` the claim predicts for every values
mapping — the value spliced for `x` re-creates a `/{y}` pattern that the
later replacement consumes. -/
theorem c10_verbatim_counterexample :
    Draft1.substUrl "/a/{x}/{y}".toList
        [("x".toList, "{y}".toList), ("y".toList, "B".toList)]
      = "/a/B/{y}".toList ∧
    Draft1.substUrl "/a/{x}/{y}".toList
        [("x".toList, "{y}".toList), ("y".toList, "B".toList)]
      ≠ "/a/{y}/B".toList := by
  refine ⟨by decide, by decide⟩

/-- C10 (amended): draft 1's substitution splices each supplied value into
the URL verbatim — no percent-encoding, escaping or validation — provided
no supplied value contains a left brace: each parameter token of the
template renders in the output as exactly `/` followed by the raw value
string (`renderB params ts`).  Consequently a value containing reserved
characters changes the URL's structure: the concrete value `1/2` introduces
an extra `/`-delimited segment, and the value `a?b` introduces a `?` the
template did not have. -/
theorem c10_verbatim_amended (ts : List Tok) (params : List (Str × Str))
    (hwf : WfB ts) (hnd : (tokNames ts).Nodup)
    (hvals : ∀ q ∈ params, '{' ∉ q.2)
    (hcover : ∀ n ∈ tokNames ts, (lookupS params n).isSome = true) :
    Draft1.substUrl (renderB [] ts) params = renderB params ts ∧
    Draft1.substUrl "/things/{id}".toList [("id".toList, "1/2".toList)]
      = "/things/1/2".toList ∧
    ("/things/1/2".toList.count '/' = 3 ∧ "/things/{id}".toList.count '/' = 2) ∧
    Draft1.substUrl "/things/{id}".toList [("id".toList, "a?b".toList)]
      = "/things/a?b".toList ∧
    ('?' ∈ Draft1.substUrl "/things/{id}".toList [("id".toList, "a?b".toList)] ∧
      '?' ∉ "/things/{id}".toList) := by
  refine ⟨?_, by decide, ⟨by decide, by decide⟩, by decide, by decide, by decide⟩
  have hfold := substUrl_fold ts params hwf hvals (tokNames ts) [] hnd hnd
    (fun n hn => ⟨hn, rfl⟩) (by intro q hq; simp at hq)
  have henv : ∀ n ∈ tokNames ts,
      lookupS
        (((tokNames ts).map
            (fun n => (n, (lookupS params n).getD undefinedChars))).reverse ++ [])
        n = lookupS params n := by
    intro n hn
    rw [List.append_nil]
    have hkeys : (((tokNames ts).map
        (fun n => (n, (lookupS params n).getD undefinedChars))).map Prod.fst).Nodup := by
      have hcomp : (Prod.fst ∘ fun n : Str =>
          (n, (lookupS params n).getD undefinedChars)) = id := by
        funext m
        rfl
      rw [List.map_map, hcomp, List.map_id]
      exact hnd
    rw [lookupS_reverse_of_nodup _ n hkeys,
      lookupS_map_self (fun n => (lookupS params n).getD undefinedChars) _ n hn]
    obtain ⟨w, hw⟩ := Option.isSome_iff_exists.mp (hcover n hn)
    rw [hw]
    rfl
  calc Draft1.substUrl (renderB [] ts) params
      = (getParamNames (renderB [] ts)).foldl
          (fun u n =>
            replaceFirst u ('/' :: '{' :: (n ++ ['}']))
              ('/' :: ((lookupS params n).getD undefinedChars)))
          (renderB [] ts) := rfl
    _ = (tokNames ts).foldl
          (fun u n =>
            replaceFirst u ('/' :: '{' :: (n ++ ['}']))
              ('/' :: ((lookupS params n).getD undefinedChars)))
          (renderB [] ts) := by rw [getParamNames_renderB ts hwf]
    _ = renderB
          (((tokNames ts).map
              (fun n => (n, (lookupS params n).getD undefinedChars))).reverse ++ [])
          ts := hfold
    _ = renderB params ts := renderB_congr _ _ ts henv

/-- Witness for C10 (amended): the template `/things/{id}` rendered from
tokens, substituted with `{id: "42"}`, yields `/things/42` — the segment is
exactly `/` followed by the raw value. -/
theorem c10_verbatim_amended_witness :
    renderB [] [Tok.lit "/things".toList, Tok.par "id".toList]
      = "/things/{id}".toList ∧
    Draft1.substUrl "/things/{id}".toList [("id".toList, "42".toList)]
      = "/things/42".toList := by
  refine ⟨by decide, ?_⟩
  have h := (c10_verbatim_amended [Tok.lit "/things".toList, Tok.par "id".toList]
    [("id".toList, "42".toList)] (by decide) (by decide) (by decide) (by decide)).1
  have htmpl : renderB ([] : List (Str × Str))
      [Tok.lit "/things".toList, Tok.par "id".toList] = "/things/{id}".toList := by
    decide
  rw [htmpl] at h
  exact h.trans (by decide)

/-- A second definition following the spec's words for comparison with the
code (section 4.1): concatenate the path onto the base URL by trimming
exactly one trailing slash from the base and ensuring exactly one leading
slash on the path. -/
def specJoin (base p : Str) : Str :=
  (if base.getLast? = some '/' then base.dropLast else base) ++
    (if p.head? = some '/' then p else '/' :: p)

/-- C8 counterexample: for the base URL `https://api.example.com/api` — a
base with a non-root path — and the substituted path `/things/1`, draft 1's
`toURL` (which resolves via `new URL(url, base)`) yields
`https://api.example.com/things/1`: the base's `/api` path is dropped,
whereas the trim-one-slash/ensure-one-slash join the claim describes would
yield `https://api.example.com/api/things/1`.  So the claim's
characterization of joining is false for some base URL and path. -/
theorem c8_join_counterexample :
    ((((Draft1.Endpoint.base "https://api.example.com/api".toList none).url
        "/things/{id}".toList).build).toURL
      [("id".toList, "1".toList)]).toStr
      = "https://api.example.com/things/1".toList ∧
    specJoin "https://api.example.com/api".toList "/things/1".toList
      = "https://api.example.com/api/things/1".toList ∧
    ((((Draft1.Endpoint.base "https://api.example.com/api".toList none).url
        "/things/{id}".toList).build).toURL
      [("id".toList, "1".toList)]).toStr
      ≠ specJoin "https://api.example.com/api".toList "/things/1".toList := by
  refine ⟨by decide, by decide, by decide⟩

/-- C8 (amended): draft 1 joins the substituted path onto the base URL by
WHATWG resolution (`new URL(url, base)`): a path beginning with `/`
replaces the base URL's entire path, keeping only its origin, and a path
without a leading `/` is appended to the directory of the base's path.
When the base's path is root — as in both of the claim's examples — this
coincides with the claimed trim/ensure-slash join:
`join("https://api.example.com/", "things/1")` and
`join("https://api.example.com", "/things/1")` both yield
`https://api.example.com/things/1`; but a base with a non-root path does
not keep that path when the substituted path starts with `/`. -/
theorem c8_join_amended :
    (∀ (base : Draft1.UrlRec) (u : Str), u.head? = some '/' →
      Draft1.resolveURL base u = ⟨base.origin, u⟩) ∧
    ((((Draft1.Endpoint.base "https://api.example.com/".toList none).url
        "/things/1".toList).build).toURL []).toStr
      = "https://api.example.com/things/1".toList ∧
    ((((Draft1.Endpoint.base "https://api.example.com".toList none).url
        "/things/1".toList).build).toURL []).toStr
      = "https://api.example.com/things/1".toList ∧
    (Draft1.resolveURL (Draft1.parseBase "https://api.example.com/".toList)
        "things/1".toList).toStr
      = "https://api.example.com/things/1".toList := by
  refine ⟨?_, by decide, by decide, by decide⟩
  intro base u h
  simp [Draft1.resolveURL, h]

/-- Witness for C8 (amended): WHATWG absolute-path resolution against the
concrete base `https://api.example.com/api` keeps the origin and replaces
the path. -/
theorem c8_join_amended_witness :
    Draft1.resolveURL (⟨"https://api.example.com".toList, "/api".toList⟩ :
        Draft1.UrlRec) "/things/1".toList
      = (⟨"https://api.example.com".toList, "/things/1".toList⟩ : Draft1.UrlRec) :=
  c8_join_amended.1
    ⟨"https://api.example.com".toList, "/api".toList⟩ "/things/1".toList rfl
